import Mathlib

/-!
Verification of the `urkel-trie` repository (a base-2 sparse Merkle trie over
an append-only log store) against its natural-language specification.

The development shallowly embeds the Rust sources:
  * `src/lib.rs`    — `KEY_SIZE`, `has_bit`
  * `src/hasher.rs` — domain-separated hashing (the Blake2b-256 primitive from
                      the external `blake2_rfc` crate is a parameter `H`)
  * `src/node.rs`   — the `Node` enum and its fixed-size codec
  * `src/db.rs`     — the log-structured `Store` (buffer, files, meta records)
  * `src/tree.rs`   — `UrkelTree`: insert / get / remove / prove / commit
  * `src/proof.rs`  — `Proof` and `Proof::verify`

Machine integers are modelled as `Nat` with explicit `% 2^w` at the points
where Rust release-mode arithmetic wraps.  Fallible or trapping code paths
(panics, `assert!`, out-of-bounds indexing, `.expect`, non-terminating loops)
return `Option`, with `none` marking the trap.  Loops are translated to
fuel-indexed structural recursions so that every definition evaluates by
kernel reduction; the fuel constants strictly dominate the iteration counts
reachable by the Rust loops.
-/

set_option maxRecDepth 100000

namespace Urkel

/-- Byte strings (`Vec<u8>` / `&[u8]`); each entry is a byte, kept `< 256` by
the well-formedness predicates where it matters. -/
abbrev Bytes := List Nat

/-- 32-byte digest (`hasher.rs::Digest`, a newtype over `[u8; 32]`). -/
structure Digest where
  bytes : Bytes
deriving DecidableEq, Repr

/-- `Digest::zero()` — the all-zero digest, sentinel for the empty tree. -/
def Digest.zero : Digest := ⟨List.replicate 32 0⟩

/-- A digest is well formed when it is 32 bytes, each an actual byte.
(`Digest` wraps `[u8; 32]` in the source, which enforces this by type.) -/
def wfDigest (d : Digest) : Prop := d.bytes.length = 32 ∧ ∀ b ∈ d.bytes, b < 256

instance : DecidablePred wfDigest := fun d => by unfold wfDigest; infer_instance

/-- `lib.rs::KEY_SIZE` — the number of key bits. -/
def KEY_SIZE : Nat := 256

/-- `lib.rs::has_bit` — bit `index` of a digest, MSB of byte 0 first.
The source indexes `key.0[index >> 3]`, which panics out of range; this total
variant reads 0 out of range, and `has_bit?` below models the bounds check
where a claim depends on the trap. -/
def has_bit (k : Digest) (index : Nat) : Bool :=
  (((k.bytes.getD (index >>> 3) 0) >>> (7 - (index &&& 7))) &&& 1) == 1

/-- `lib.rs::has_bit` with the array bounds check made explicit: `none` is the
out-of-range panic `key.0[index >> 3]`. -/
def has_bit? (k : Digest) (index : Nat) : Option Bool :=
  if index >>> 3 < k.bytes.length then
    some ((((k.bytes.getD (index >>> 3) 0) >>> (7 - (index &&& 7))) &&& 1) == 1)
  else none

/-- Little-endian encoding of a `u16` (`byteorder::LittleEndian::write_u16`);
writing truncates to 16 bits exactly as the Rust `u16` type does. -/
def le16 (x : Nat) : Bytes := [x % 256, (x / 256) % 256]

/-- Little-endian encoding of a `u32` (`byteorder::LittleEndian::write_u32`). -/
def le32 (x : Nat) : Bytes :=
  [x % 256, (x / 256) % 256, (x / 65536) % 256, (x / 16777216) % 256]

/-- Little-endian read of a byte window (`byteorder::LittleEndian::read_uXX` /
`Cursor::read_uXX`): least significant byte first. -/
def rdLE (b : Bytes) : Nat := b.foldr (fun byte acc => byte + 256 * acc) 0

/-! ## Hashing (`src/hasher.rs`)

`hash` is Blake2b-256 from the external `blake2_rfc` crate; the whole
development is parametric in it (`H : Bytes → Digest`).  Streaming
`context.update` calls are equivalent to hashing the concatenation of the
updates, so the domain-separated helpers below hash explicit concatenations.

Modelled from the spec: `hasher.rs` imports `LEAF_PREFIX` and
`INTERNAL_PREFIX` from the crate root, where they are absent from the given
sources; §4.A of the spec fixes `LEAF_PREFIX = 0x00`, `INTERNAL_PREFIX =
0x01`, which is what the literals `0` and `1` below denote. -/

/-- `hasher.rs::hash_leaf`: `hash(0x00 || key || value)`. -/
def hash_leaf (H : Bytes → Digest) (key : Digest) (value : Bytes) : Digest :=
  H (0 :: (key.bytes ++ value))

/-- `hasher.rs::hash_leaf_value`: `hash_leaf(key, hash(value))`. -/
def hash_leaf_value (H : Bytes → Digest) (key : Digest) (value : Bytes) : Digest :=
  hash_leaf H key (H value).bytes

/-- `hasher.rs::hash_internal`: `hash(0x01 || left || right)`. -/
def hash_internal (H : Bytes → Digest) (left right : Digest) : Digest :=
  H (1 :: (left.bytes ++ right.bytes))

/-! ## Node model (`src/node.rs`) -/

/-- `node.rs::LEAF_NODE_SIZE`. -/
def LEAF_NODE_SIZE : Nat := 40

/-- `node.rs::INTERNAL_NODE_SIZE`. -/
def INTERNAL_NODE_SIZE : Nat := 76

/-- `node.rs::Node`.  `index : u16`, `pos : u32`, `vindex : u16`,
`vpos : u32`, `vsize : u16`, `is_leaf : u8` are all carried as `Nat`.
The cached-hash field is named `data` in `node.rs` (tree.rs refers to the
same field as `hash`). -/
inductive Node where
  | empty : Node
  | hashn (index : Nat) (pos : Nat) (data : Digest) (is_leaf : Nat) : Node
  | leaf (index : Nat) (pos : Nat) (data : Digest) (key : Digest)
      (value : Option Bytes) (vindex : Nat) (vpos : Nat) (vsize : Nat) : Node
  | internal (index : Nat) (pos : Nat) (data : Digest) (left right : Node) : Node
deriving DecidableEq, Repr

/-- `node.rs::Node::hash` — recomputed for `Internal`, cached elsewhere. -/
def Node.hash (H : Bytes → Digest) : Node → Digest
  | .empty => Digest.zero
  | .hashn _ _ data _ => data
  | .leaf _ _ data _ _ _ _ _ => data
  | .internal _ _ _ left right =>
      hash_internal H (left.hash H) (right.hash H)

/-- `node.rs::Node::update_data_value` (called `set_hash` at its use sites in
`tree.rs`): overwrite the cached hash.  On `Empty` the source hits
`unimplemented!`; resolution never calls it on `Empty`, and we keep it total
by returning the node unchanged there. -/
def Node.update_data_value (n : Node) (h : Digest) : Node :=
  match n with
  | .hashn index pos _ is_leaf => .hashn index pos h is_leaf
  | .leaf index pos _ key value vindex vpos vsize =>
      .leaf index pos h key value vindex vpos vsize
  | .internal index pos _ left right => .internal index pos h left right
  | .empty => .empty

/-- `node.rs::Node::update_value_storage_location` (`set_value_index_position`
at the `tree.rs` call sites): record where the leaf value blob was stored. -/
def Node.update_value_storage_location (n : Node) (i p : Nat) : Node :=
  match n with
  | .leaf index pos data key value _ _ vsize =>
      .leaf index pos data key value i p vsize
  | n => n

/-- `node.rs::Node::get_storage_location` (`get_index_position` in tree.rs). -/
def Node.get_storage_location : Node → Nat × Nat
  | .leaf index pos _ _ _ _ _ _ => (index, pos)
  | .internal index pos _ _ _ => (index, pos)
  | .hashn index pos _ _ => (index, pos)
  | .empty => (0, 0)

/-- `node.rs::Node::update_storage_location` (`set_index_position` in
tree.rs and db.rs). -/
def Node.update_storage_location (n : Node) (i p : Nat) : Node :=
  match n with
  | .leaf _ _ data key value vindex vpos vsize =>
      .leaf i p data key value vindex vpos vsize
  | .internal _ _ data left right => .internal i p data left right
  | .hashn _ _ data is_leaf => .hashn i p data is_leaf
  | .empty => .empty

/-- `node.rs::Node::into_hash_node`. -/
def Node.into_hash_node (H : Bytes → Digest) (n : Node) : Node :=
  match n with
  | .internal index pos _ _ _ => .hashn index pos (n.hash H) 0
  | .leaf index pos _ _ _ _ _ _ => .hashn index pos (n.hash H) 1
  | n => n

/-- `node.rs::Node::is_leaf`. -/
def Node.is_leaf : Node → Bool
  | .leaf _ _ _ _ _ _ _ _ => true
  | .hashn _ _ _ is_leaf => is_leaf == 1
  | _ => false

/-- `node.rs::Node::is_empty`. -/
def Node.is_empty : Node → Bool
  | .empty => true
  | _ => false

/-- `node.rs::Node::new_leaf_node`.  `v.len() as u16` truncates the recorded
value size to 16 bits. -/
def Node.new_leaf_node (H : Bytes → Digest) (key : Digest) (value : Bytes) : Node :=
  .leaf 0 0 (hash_leaf_value H key value) key (some value) 0 0 (value.length % 65536)

/-- `node.rs::Node::new_internal_node`. -/
def Node.new_internal_node (left right : Node) : Node :=
  .internal 0 0 Digest.zero left right

/-- `node.rs::Node::tag_pos_for_leaf_or_internal`; `pos * 2` wraps at `u32`
in release builds, which the encoder's `le32` truncation reproduces. -/
def tag_pos_for_leaf_or_internal (pos : Nat) (is_leaf : Bool) : Nat :=
  if is_leaf then pos * 2 + 1 else pos * 2

/-- `node.rs::Node::encode`.  `none` covers both the `Err` on `Empty`/`Hash`
and the `assert!(value.is_some())` panic on a value-less leaf.  The
`u16`/`u32` writes truncate exactly as `byteorder` does on the fixed-width
Rust types (`vindex * 2 + 1` and the tagged positions wrap in release mode). -/
def Node.encode (H : Bytes → Digest) : Node → Option Bytes
  | .leaf _ _ _ key value vindex _vpos vsize =>
      match value with
      | none => none
      | some _ =>
          some (le16 (vindex * 2 + 1) ++ le32 _vpos ++ le16 vsize ++ key.bytes)
  | .internal _ _ _ left right =>
      let lloc := left.get_storage_location
      let rloc := right.get_storage_location
      some (le16 (lloc.1 * 2)
        ++ le32 (tag_pos_for_leaf_or_internal lloc.2 left.is_leaf)
        ++ (left.hash H).bytes
        ++ le16 rloc.1
        ++ le32 (tag_pos_for_leaf_or_internal rloc.2 right.is_leaf)
        ++ (right.hash H).bytes)
  | _ => none

/-- `node.rs::Node::get_pos_tag`. -/
def get_pos_tag (flagged_pos : Nat) : Nat × Nat := (flagged_pos >>> 1, flagged_pos &&& 1)

/-- `node.rs::Node::decode`.  `none` is an `assert!` panic (wrong buffer
length, or a parity check failing). -/
def Node.decode (bits : Bytes) (is_leaf : Bool) : Option Node :=
  if is_leaf then
    if bits.length ≠ LEAF_NODE_SIZE then none
    else
      let k := bits.drop 8
      let shifted_vindex := rdLE (bits.take 2)
      if shifted_vindex &&& 1 ≠ 1 then none
      else
        let vindex := shifted_vindex >>> 1
        let vpos := rdLE ((bits.drop 2).take 4)
        let vsize := rdLE ((bits.drop 6).take 2)
        some (.leaf 0 0 Digest.zero ⟨k⟩ none vindex vpos vsize)
  else
    if bits.length ≠ INTERNAL_NODE_SIZE then none
    else
      let shifted_left_index := rdLE (bits.take 2)
      if shifted_left_index &&& 1 ≠ 0 then none
      else
        let left_index := shifted_left_index >>> 1
        let leftnode : Node :=
          if left_index ≠ 0 then
            let lt := get_pos_tag (rdLE ((bits.drop 2).take 4))
            .hashn left_index lt.1 ⟨(bits.drop 6).take 32⟩ lt.2
          else .empty
        let right_index := rdLE ((bits.drop 38).take 2)
        let rightnode : Node :=
          if right_index ≠ 0 then
            let rt := get_pos_tag (rdLE ((bits.drop 40).take 4))
            .hashn right_index rt.1 ⟨(bits.drop 44).take 32⟩ rt.2
          else .empty
        some (.internal 0 0 Digest.zero leftnode rightnode)

/-! ## Log store (`src/db.rs`)

The store directory is an association list `files : List (Nat × Bytes)` from
file index (the parsed 10-digit filename) to on-disk contents.  The open
append handle, `pos` and the in-memory write buffer follow `db.rs::Store`. -/

/-- `db.rs::Meta` (the in-memory copy of the 16-byte meta record). -/
structure Meta where
  index : Nat
  pos : Nat
  root_index : Nat
  root_pos : Nat
  is_leaf : Bool
deriving DecidableEq, Repr

/-- `db.rs::Meta::default`. -/
def Meta.default : Meta := ⟨1, 0, 1, 0, false⟩

/-- `db.rs::META_MAGIC`. -/
def META_MAGIC : Nat := 0x6d726b6c

/-- `db.rs::Meta::encode`: magic, meta index, meta pos, root index, and the
root position tagged with the leaf bit (`root_pos * 2 + is_leaf`). -/
def Meta.encode (m : Meta) : Bytes :=
  le32 META_MAGIC ++ le16 m.index ++ le32 m.pos ++ le16 m.root_index
    ++ le32 (if m.is_leaf then m.root_pos * 2 + 1 else m.root_pos * 2)

/-- The scan loop of `db.rs::Meta::open`.  Each iteration decrements
`start_pos` by 16, fails (`MetaRootNotFound`) when it reaches 0, and
otherwise reads the 16 bytes at `SeekFrom::End(-start_pos)`, i.e. at offset
`file.length - start_pos` **from the start** — so successive iterations move
*forward* through the file, not backward (`start_pos` itself was computed
from the start of the file; spec §9 flags this seek as a bug).  A slot whose
first four bytes match the magic is parsed and returned; note the parsed
`root_pos` keeps the *tagged* on-disk value (the `adj_root_pos` shift is
computed but discarded in `db.rs`). -/
def metaScan (file : Bytes) (start_pos : Nat) (fuel : Nat) : Option Meta :=
  match fuel with
  | 0 => none
  | fuel + 1 =>
      if start_pos ≤ 16 then none
      else
        let sp := start_pos - 16
        let off := file.length - sp
        let buffer := (file.drop off).take 16
        if buffer.length ≠ 16 then none
        else if rdLE (buffer.take 4) = META_MAGIC then
          let root_pos := rdLE ((buffer.drop 12).take 4)
          some { index := rdLE ((buffer.drop 4).take 2),
                 pos := rdLE ((buffer.drop 6).take 4),
                 root_index := rdLE ((buffer.drop 10).take 2),
                 root_pos := root_pos,
                 is_leaf := root_pos &&& 1 = 1 }
        else metaScan file sp fuel

/-- `db.rs::Meta::open`: read-only open of the numbered log file, empty-file
default, then the scan loop (fuel strictly dominates the iteration count). -/
def metaOpen (files : List (Nat × Bytes)) (file_id : Nat) : Option Meta :=
  match files.lookup file_id with
  | none => none
  | some file =>
      if file.length = 0 then some ⟨file_id, 0, file_id, 0, false⟩
      else metaScan file (file.length - file.length % 16) (file.length / 16 + 2)

/-- `db.rs::Store`. -/
structure StoreSt where
  files : List (Nat × Bytes)
  meta : Meta
  active : Nat
  pos : Nat
  buf : Bytes
deriving DecidableEq, Repr

/-- Replace the contents of one directory entry (appending via the open
handle rewrites that file's contents in place). -/
def updateFile (files : List (Nat × Bytes)) (i : Nat) (b : Bytes) :
    List (Nat × Bytes) :=
  files.map fun p => if p.1 = i then (i, b) else p

/-- `db.rs::load_log_files`, reduced to what `Store::open` consumes: the head
of the descending sort, i.e. the largest valid (nonzero) file index;
`none` is `Error::NoLogFiles`. -/
def load_log_files (files : List (Nat × Bytes)) : Option Nat :=
  match (files.map Prod.fst).filter (fun i => 0 < i) with
  | [] => none
  | a :: rest => some (rest.foldl max a)

/-- The tail of `db.rs::Store::open` after a meta was obtained: open (and
create if missing) the append handle on file `meta.root_index`, and seat
`pos` just past the meta record. -/
def openWith (files : List (Nat × Bytes)) (m : Meta) : StoreSt :=
  { files := if (files.lookup m.root_index).isSome then files
             else files ++ [(m.root_index, [])],
    meta := m,
    active := m.root_index,
    pos := if m.pos = 0 then 0 else m.pos + 16,
    buf := [] }

/-- `db.rs::Store::open`; `none` is the `panic!(r)` on a failed meta scan. -/
def storeOpen (files : List (Nat × Bytes)) : Option StoreSt :=
  match load_log_files files with
  | none => some (openWith files Meta.default)
  | some top =>
      match metaOpen files top with
      | none => none
      | some m => some (openWith files m)

/-- A store freshly opened on an empty directory. -/
def freshStore : StoreSt := openWith [] Meta.default

/-- `db.rs::Store::write_node`: append to the in-memory buffer only, return
`(active index, position before the append)`; `pos` is a `u32`. -/
def write_node (s : StoreSt) (data : Bytes) : (Nat × Nat) × StoreSt :=
  ((s.meta.root_index, s.pos),
   { s with buf := s.buf ++ data, pos := (s.pos + data.length) % 4294967296 })

/-- `db.rs::Store::write_value` — identical buffering to `write_node`. -/
def write_value (s : StoreSt) (data : Bytes) : (Nat × Nat) × StoreSt :=
  ((s.meta.root_index, s.pos),
   { s with buf := s.buf ++ data, pos := (s.pos + data.length) % 4294967296 })

/-- `db.rs::Store::get_value`: open the numbered file read-only, seek, and
`read_exact` `vsize` bytes (`none` on a missing file or a short read). -/
def get_value (s : StoreSt) (vindex vpos vsize : Nat) : Option Bytes :=
  match s.files.lookup vindex with
  | none => none
  | some f =>
      if vpos + vsize ≤ f.length then some ((f.drop vpos).take vsize) else none

/-- `db.rs::Store::get_node`: read the fixed-size packet at `(index, pos)`
(plain `read` into a zeroed buffer, so a short read leaves trailing zeros)
and decode it. -/
def get_node (s : StoreSt) (index pos : Nat) (is_leaf : Bool) : Option Node :=
  match s.files.lookup index with
  | none => none
  | some f =>
      let size := if is_leaf then LEAF_NODE_SIZE else INTERNAL_NODE_SIZE
      let chunk := (f.drop pos).take size
      Node.decode (chunk ++ List.replicate (size - chunk.length) 0) is_leaf

/-- `db.rs::Store::get_node` with its two failure modes kept apart, for the
one caller that distinguishes them (`UrkelTree::new` catches `io::Result`
errors): `none` is an io `Err` returned to the caller (the numbered file
cannot be opened), while `some none` is an `assert!` failure inside
`Node::decode`, a panic that aborts the process instead of returning
`Err`.  The successful path is byte-for-byte `get_node` above. -/
def get_node_layered (s : StoreSt) (index pos : Nat) (is_leaf : Bool) :
    Option (Option Node) :=
  match s.files.lookup index with
  | none => none
  | some f =>
      let size := if is_leaf then LEAF_NODE_SIZE else INTERNAL_NODE_SIZE
      let chunk := (f.drop pos).take size
      some (Node.decode (chunk ++ List.replicate (size - chunk.length) 0) is_leaf)

/-- `db.rs::Store::get_root_node`: load the node the meta points at, restore
its storage coordinates, and wrap it as a hash node.  Same layering as
`get_node_layered`: outer `none` is an io `Err` propagated to the caller,
inner `none` is the decode `assert!` panic. -/
def get_root_node (H : Bytes → Digest) (s : StoreSt) : Option (Option Node) :=
  (get_node_layered s s.meta.root_index s.meta.root_pos s.meta.is_leaf).map
    (Option.map fun n =>
      (n.update_storage_location s.meta.root_index s.meta.root_pos).into_hash_node H)

/-- `db.rs::Store::commit`: flush the buffer to the active file, pad to a
16-byte boundary, append a fresh meta, clear the buffer. -/
def storeCommit (s : StoreSt) (root_index root_pos : Nat) (is_leaf : Bool) :
    Option StoreSt :=
  match s.files.lookup s.active with
  | none => none
  | some f0 =>
      let f1 := f0 ++ s.buf
      let pad := 16 - s.pos % 16
      let f2 := f1 ++ List.replicate pad 0
      let pos2 := (s.pos + pad) % 4294967296
      let m : Meta := ⟨root_index, pos2, root_index, root_pos, is_leaf⟩
      let f3 := f2 ++ m.encode
      some { files := updateFile s.files s.active f3, meta := m,
             active := s.active, pos := (pos2 + 16) % 4294967296, buf := [] }

/-! ## Trie engine (`src/tree.rs`) -/

/-- The `while has_bit(&nkey, depth) == has_bit(&key, depth)` loop of
`add_child`: push an `Empty` sibling per shared bit.  `has_bit` is the
checked variant because the source loop indexes the digests unboundedly
(two digests equal on all bits make it run off the 32-byte array); `none`
is that panic (or fuel exhaustion, which the call sites dominate). -/
def splitPush (nkey okey : Digest) (depth : Nat) (nodes : List Node) (fuel : Nat) :
    Option (Nat × List Node) :=
  match fuel with
  | 0 => none
  | fuel + 1 =>
      match has_bit? nkey depth, has_bit? okey depth with
      | some b1, some b2 =>
          if b1 = b2 then splitPush nkey okey (depth + 1) (.empty :: nodes) fuel
          else some (depth, nodes)
      | _, _ => none

/-- Fuel for the shared-prefix loop: well-formed digests differ within 256
bits, and out-of-range bit reads stop the loop at 256 anyway. -/
def SPLIT_FUEL : Nat := 300

/-- The bottom-up rebuild at the end of `add_child` / `remove_child`:
`for n in nodes.into_iter().rev() { depth -= 1; ... }`.  The `Vec` is pushed
at the back and drained in reverse, so the head of this list is the most
recently pushed sibling, exactly the first one the fold consumes. -/
def rebuildLoop (nkey : Digest) : Node → List Node → Nat → Node
  | nr, [], _ => nr
  | nr, n :: rest, depth =>
      rebuildLoop nkey
        (if has_bit nkey (depth - 1) then Node.new_internal_node n nr
         else Node.new_internal_node nr n) rest (depth - 1)

/-- Iteration bound for the descent loops: a resolution step and an internal
step per level, the `assert_ne!(depth, KEY_SIZE)` capping levels at 256. -/
def TREE_FUEL : Nat := 600

/-- The descent loop of `tree.rs::add_child`, followed by the rebuild.
Faithful points: the early `return Some(root)` when an identical leaf
(same key, same leaf hash) is found returns just the descended-to *subtree*,
discarding the recorded siblings; `assert_ne!(depth, KEY_SIZE)` is `none`;
an unresolvable hash node is the `.expect` panic (`none`). -/
def addChildGo (H : Bytes → Digest) (s : StoreSt) (nkey leaf_hash : Digest)
    (value : Bytes) : Node → Nat → List Node → Nat → Option Node
  | _, _, _, 0 => none
  | .empty, depth, nodes, _ + 1 =>
      some (rebuildLoop nkey (Node.new_leaf_node H nkey value) nodes depth)
  | .hashn index pos data is_leaf, depth, nodes, fuel + 1 =>
      match get_node s index pos ((Node.hashn index pos data is_leaf).is_leaf) with
      | some n => addChildGo H s nkey leaf_hash value (n.update_data_value data) depth nodes fuel
      | none => none
  | .leaf i p data key v vi vp vs, depth, nodes, _ + 1 =>
      if nkey = key then
        if leaf_hash = data then some (.leaf i p data key v vi vp vs)
        else some (rebuildLoop nkey (Node.new_leaf_node H nkey value) nodes depth)
      else
        match splitPush nkey key depth nodes SPLIT_FUEL with
        | none => none
        | some (d, nodes1) =>
            some (rebuildLoop nkey (Node.new_leaf_node H nkey value)
              (Node.leaf i p data key v vi vp vs :: nodes1) (d + 1))
  | .internal _ _ _ left right, depth, nodes, fuel + 1 =>
      if depth = KEY_SIZE then none
      else if has_bit nkey depth then
        addChildGo H s nkey leaf_hash value right (depth + 1) (left :: nodes) fuel
      else
        addChildGo H s nkey leaf_hash value left (depth + 1) (right :: nodes) fuel

/-- `tree.rs::add_child`. -/
def addChild (H : Bytes → Digest) (s : StoreSt) (root : Node) (nkey : Digest)
    (value : Bytes) : Option Node :=
  addChildGo H s nkey (hash_leaf_value H nkey value) value root 0 [] TREE_FUEL

/-- `tree.rs::insert`: hash the key, then `add_child` on the root. -/
def treeInsert (H : Bytes → Digest) (s : StoreSt) (root : Node) (key value : Bytes) :
    Option Node :=
  addChild H s root (H key) value

/-- A sequence of `insert` calls. -/
def insertList (H : Bytes → Digest) (s : StoreSt) :
    Node → List (Bytes × Bytes) → Option Node
  | t, [] => some t
  | t, (k, v) :: rest =>
      match treeInsert H s t k v with
      | some t1 => insertList H s t1 rest
      | none => none

/-- The loop of `tree.rs::get`; the result `some r` carries the source
function's `Option<Vec<u8>>`, outer `none` being a panic or divergence. -/
def getGo (H : Bytes → Digest) (s : StoreSt) (nkey : Digest) :
    Node → Nat → Nat → Option (Option Bytes)
  | _, _, 0 => none
  | .hashn index pos data is_leaf, depth, fuel + 1 =>
      match get_node s index pos ((Node.hashn index pos data is_leaf).is_leaf) with
      | some n => getGo H s nkey (n.update_data_value data) depth fuel
      | none => none
  | .leaf _ _ _ key value vi vp vs, _, _ + 1 =>
      if nkey ≠ key then some none
      else if value.isSome then some value
      else
        match get_value s vi vp vs with
        | some v => some (some v)
        | none => some none
  | .internal _ _ _ left right, depth, fuel + 1 =>
      getGo H s nkey (if has_bit nkey depth then right else left) (depth + 1) fuel
  | .empty, _, _ + 1 => some none

/-- `tree.rs::get`. -/
def treeGet (H : Bytes → Digest) (s : StoreSt) (root : Node) (key : Bytes) :
    Option (Option Bytes) :=
  getGo H s (H key) root 0 TREE_FUEL

/-- The bubbling loop of `remove_child`:
`while depth > 0 { if !nodes.last().is_empty() break; pop }`.  `none` is the
`unwrap` panic on an empty stack (unreachable: the stack always holds
exactly `depth` entries). -/
def bubble : List Node → Nat → Option (List Node × Nat)
  | ns, 0 => some (ns, 0)
  | [], _ + 1 => none
  | t :: rest, d + 1 =>
      if t.is_empty then bubble rest d else some (t :: rest, d + 1)

/-- The loop of `tree.rs::remove_child` plus its rebuild.  Faithful points:
reaching `Empty` or a leaf with a different key does `return Some(root)` —
the *current subtree* becomes the whole new root and the recorded siblings
are discarded; `nodes[depth - 1]` is the head of the stack (the stack holds
exactly `depth` entries); a failed hash resolution leaves `root` unchanged,
so the source loop spins forever (`none` by fuel). -/
def removeGo (H : Bytes → Digest) (s : StoreSt) (nkey : Digest) :
    Node → Nat → List Node → Nat → Option Node
  | _, _, _, 0 => none
  | .empty, _, _, _ + 1 => some .empty
  | .hashn index pos data is_leaf, depth, nodes, fuel + 1 =>
      match get_node s index pos ((Node.hashn index pos data is_leaf).is_leaf) with
      | some n => removeGo H s nkey (n.update_data_value data) depth nodes fuel
      | none => removeGo H s nkey (.hashn index pos data is_leaf) depth nodes fuel
  | .internal _ _ _ left right, depth, nodes, fuel + 1 =>
      if depth = KEY_SIZE then none
      else if has_bit nkey depth then
        removeGo H s nkey right (depth + 1) (left :: nodes) fuel
      else
        removeGo H s nkey left (depth + 1) (right :: nodes) fuel
  | .leaf i p data key v vi vp vs, depth, nodes, _ + 1 =>
      if nkey ≠ key then some (.leaf i p data key v vi vp vs)
      else if depth = 0 then some .empty
      else
        match nodes with
        | [] => none
        | n :: rest =>
            if n.is_leaf then
              match bubble rest (depth - 1) with
              | none => none
              | some (rest1, depth1) => some (rebuildLoop nkey n rest1 depth1)
            else some (rebuildLoop nkey .empty (n :: rest) depth)

/-- `tree.rs::remove`. -/
def treeRemove (H : Bytes → Digest) (s : StoreSt) (root : Node) (key : Bytes) :
    Option Node :=
  removeGo H s (H key) root 0 [] TREE_FUEL

/-- `tree.rs::get_root` — the root hash of the tree. -/
def get_root (H : Bytes → Digest) (root : Node) : Digest := root.hash H

/-! ## Proofs (`src/proof.rs`) -/

/-- `proof.rs::ProofType`. -/
inductive ProofType where
  | Exists : ProofType
  | Collision : ProofType
  | Deadend : ProofType
deriving DecidableEq, Repr

/-- `proof.rs::Proof`. -/
structure Proof where
  proof_type : ProofType
  node_hashes : List Digest
  key : Option Digest
  hash : Option Digest
  value : Option Bytes
deriving DecidableEq, Repr

/-- `proof.rs::Proof::default` — a `Deadend` with no siblings. -/
def Proof.default : Proof := ⟨.Deadend, [], none, none, none⟩

/-- `proof.rs::Proof::depth` — the sibling count. -/
def Proof.depth (p : Proof) : Nat := p.node_hashes.length

/-- `proof.rs::Proof::is_sane`. -/
def Proof.is_sane (p : Proof) : Bool :=
  match p.proof_type with
  | .Exists =>
      !(p.key.isSome || p.hash.isSome || p.value.isNone
        || decide (0xffff < (p.value.getD []).length))
  | .Collision =>
      !(p.key.isNone || p.hash.isNone || p.value.isSome
        || decide ((p.key.getD Digest.zero).bytes.length ≠ KEY_SIZE >>> 3)
        || decide ((p.hash.getD Digest.zero).bytes.length ≠ 32))
  | .Deadend => false

/-- The loop of `tree.rs::prove`, threading the growing proof.  Faithful
points: at a leaf the value is read from the *store* (`get_value`), and when
that read fails the `if let Ok` falls through and the loop breaks with the
default `Deadend` proof untouched; sibling hashes are pushed in descent
order; a failed hash resolution spins forever (`none` by fuel). -/
def proveGo (H : Bytes → Digest) (s : StoreSt) (hashed_key : Digest) :
    Node → Nat → Proof → Nat → Option Proof
  | _, _, _, 0 => none
  | .empty, _, pf, _ + 1 => some pf
  | .leaf _ _ _ key value vi vp vs, _, pf, _ + 1 =>
      match get_value s vi vp vs with
      | some v =>
          if hashed_key = key then
            some { pf with proof_type := .Exists, value := some v }
          else
            some { pf with proof_type := .Collision, key := some key,
                           hash := value.map (fun v0 => H v0) }
      | none => some pf
  | .internal _ _ _ left right, depth, pf, fuel + 1 =>
      if depth = KEY_SIZE then none
      else if has_bit hashed_key depth then
        proveGo H s hashed_key right (depth + 1)
          { pf with node_hashes := pf.node_hashes ++ [left.hash H] } fuel
      else
        proveGo H s hashed_key left (depth + 1)
          { pf with node_hashes := pf.node_hashes ++ [right.hash H] } fuel
  | .hashn index pos data is_leaf, depth, pf, fuel + 1 =>
      match get_node s index pos ((Node.hashn index pos data is_leaf).is_leaf) with
      | some n => proveGo H s hashed_key (n.update_data_value data) depth pf fuel
      | none => proveGo H s hashed_key (.hashn index pos data is_leaf) depth pf fuel

/-- `tree.rs::prove`. -/
def treeProve (H : Bytes → Digest) (s : StoreSt) (root : Node) (key : Bytes) :
    Option Proof :=
  proveGo H s (H key) root 0 Proof.default TREE_FUEL

/-- The sibling fold of `proof.rs::Proof::verify`, iterating the reversed
sibling list.  `has_bit` is checked here because `depth` can reach the key
digest's end (the out-of-range panic is `none`); the depth decrement is the
source's saturating `if depth > 0 { depth -= 1 }`. -/
def verifyLoop (H : Bytes → Digest) (hashed_key : Digest) :
    List Digest → Digest → Nat → Option Digest
  | [], next, _ => some next
  | n :: rest, next, depth =>
      match has_bit? hashed_key depth with
      | none => none
      | some b =>
          verifyLoop H hashed_key rest
            (if b then hash_internal H n next else hash_internal H next n)
            (if 0 < depth then depth - 1 else depth)

/-- `proof.rs::Proof::verify`.  The inner `Except` is the source's
`Result<Vec<u8>, &str>`; the outer `none` is a trap.  The starting depth is
`self.depth() - 1` on a `usize`, modelled with release-mode wraparound
(`% 2^64`); debug builds would already panic here when there are no
siblings. -/
def Proof.verify (H : Bytes → Digest) (p : Proof) (root_hash : Digest)
    (nkey : Bytes) : Option (Except String Bytes) :=
  let hashed_key := H nkey
  if ¬ p.is_sane then some (.error "Unknown")
  else
    match (match p.proof_type with
           | .Deadend => Sum.inr Digest.zero
           | .Collision =>
               if p.key = some hashed_key then Sum.inl "Same Key"
               else Sum.inr (hash_leaf H (p.key.getD Digest.zero)
                 (p.hash.getD Digest.zero).bytes)
           | .Exists =>
               Sum.inr (hash_leaf_value H hashed_key (p.value.getD []))) with
    | Sum.inl e => some (.error e)
    | Sum.inr leaf =>
        let depth := (p.node_hashes.length + (18446744073709551616 - 1))
          % 18446744073709551616
        match verifyLoop H hashed_key p.node_hashes.reverse leaf depth with
        | none => none
        | some next =>
            if next ≠ root_hash then some (.error "Head Mismatch")
            else
              match p.value with
              | some v => some (.ok v)
              | none => some (.error "Bad Verification")

/-! ## Commit (`tree.rs::write_to_store` / `commit`) and reopen -/

/-- `tree.rs::write_to_store`: post-order persist of the dirty tree,
replacing each written node by a hash node carrying its coordinates.  A
leaf is re-created with `new_leaf_node` before its value and encoding are
appended. -/
def write_to_store (H : Bytes → Digest) : Node → StoreSt → Option (Node × StoreSt)
  | .internal index pos _ left right, s => do
      let (left_node, s1) ← write_to_store H left s
      let (right_node, s2) ← write_to_store H right s1
      let nn : Node := .internal index pos Digest.zero left_node right_node
      if index = 0 then
        let encoded ← nn.encode H
        let r := write_node s2 encoded
        let nn2 := nn.update_storage_location r.1.1 r.1.2
        some (nn2.into_hash_node H, r.2)
      else
        some (nn.into_hash_node H, s2)
  | .leaf index pos data key value vi vp vs, s =>
      match value with
      | some v =>
          if index = 0 then
            let l := Node.new_leaf_node H key v
            let rv := write_value s v
            let l1 := l.update_value_storage_location rv.1.1 rv.1.2
            match l1.encode H with
            | none => none
            | some encoded =>
                let rn := write_node rv.2 encoded
                let l2 := l1.update_storage_location rn.1.1 rn.1.2
                some (l2.into_hash_node H, rn.2)
          else some ((Node.leaf index pos data key value vi vp vs).into_hash_node H, s)
      | none => some ((Node.leaf index pos data key value vi vp vs).into_hash_node H, s)
  | .hashn index pos data is_leaf, s => some (.hashn index pos data is_leaf, s)
  | .empty, s => some (.empty, s)

/-- `tree.rs::commit`: persist the tree, then commit the store with the new
root's coordinates; the committed root (a hash node) becomes the tree root. -/
def treeCommit (H : Bytes → Digest) (root : Node) (s : StoreSt) :
    Option (Node × StoreSt) := do
  let (r, s1) ← write_to_store H root s
  let loc := r.get_storage_location
  let s2 ← storeCommit s1 loc.1 loc.2 r.is_leaf
  some (r, s2)

/-- `tree.rs::UrkelTree::new`: open the store on a directory; a loadable
root is installed.  Only an io `Err` from `get_root_node` reaches the
`Err(_)` arm and is replaced by an `Empty` root; `none` is a panic — the
`Store::open` `.expect`, or the `assert!` inside `Node::decode` reached
through `get_root_node`, both of which abort the process. -/
def treeNew (H : Bytes → Digest) (files : List (Nat × Bytes)) :
    Option (Node × StoreSt) :=
  match storeOpen files with
  | none => none
  | some s =>
      match get_root_node H s with
      | none => some (.empty, s)
      | some none => none
      | some (some r) => some (r, s)

/-! ## A concrete stand-in hash for witnesses and counterexamples

The development is parametric in the Blake2b-256 primitive `H`; concrete
witnesses instantiate it with the executable digest below (32 bytes, each a
byte; collision-free on every concrete input a witness uses, which `decide`
checks where needed). -/

/-- A concrete executable 32-byte digest used to instantiate the hash
parameter in witnesses. -/
def toyHash (data : Bytes) : Digest :=
  ⟨(List.range 32).map fun i =>
    (data.length + data.getD i 0 + 3 * data.getD (i + 32) 0
      + 5 * data.getD (i + 64) 0) % 256⟩

/-! ## Store writes touch only the buffer (claim C8) -/

/-- A `write_node` / `write_value` call with its payload. -/
inductive WOp where
  | node (data : Bytes) : WOp
  | val (data : Bytes) : WOp

/-- Run a sequence of buffered writes against a store. -/
def applyWrites (s : StoreSt) : List WOp → StoreSt
  | [] => s
  | .node d :: rest => applyWrites (write_node s d).2 rest
  | .val d :: rest => applyWrites (write_value s d).2 rest

/-- Concatenated payload of a write sequence. -/
def payloads : List WOp → Bytes
  | [] => []
  | .node d :: rest => d ++ payloads rest
  | .val d :: rest => d ++ payloads rest

/-! ## Concrete failing evaluations for the code_bug claims -/

/-! ## Codec lemmas (claims C6, C7) -/

/-- The stable observables of a child slot: file index, untagged position,
leaf flag, hash. -/
def childView (H : Bytes → Digest) (n : Node) : Nat × Nat × Bool × Digest :=
  (n.get_storage_location.1, n.get_storage_location.2, n.is_leaf, n.hash H)

/-- Encodable nodes on which the codec round-trips: a leaf with a value and
in-range fields (`value_index` must clear the parity tag, so below `2^15`),
or an internal whose children are `Empty` or persisted (`index ≠ 0`), with
the left index below `2^15` (it is stored doubled) and positions below
`2^31` (they are stored tagged in a `u32`). -/
def encBounds (H : Bytes → Digest) : Node → Prop
  | .leaf _ _ _ key value vindex vpos vsize =>
      value.isSome = true ∧ key.bytes.length = 32 ∧ vindex < 32768 ∧
        vpos < 4294967296 ∧ vsize < 65536
  | .internal _ _ _ left right =>
      (left = .empty ∨ left.get_storage_location.1 ≠ 0) ∧
      (right = .empty ∨ right.get_storage_location.1 ≠ 0) ∧
      left.get_storage_location.1 < 32768 ∧ right.get_storage_location.1 < 65536 ∧
      left.get_storage_location.2 < 2147483648 ∧
      right.get_storage_location.2 < 2147483648 ∧
      (left.hash H).bytes.length = 32 ∧ (right.hash H).bytes.length = 32
  | _ => False

instance (H : Bytes → Digest) : DecidablePred (encBounds H) := fun n => by
  unfold encBounds; cases n <;> infer_instance

/-- Stable-field agreement between an encodable node and its decode: for a
leaf the key digest, `value_index`, `value_pos`, `value_size`; for an
internal the per-child index, untagged position, leaf flag and hash. -/
def stableEq (H : Bytes → Digest) : Node → Node → Prop
  | .leaf _ _ _ key _ vi vp vs, .leaf _ _ _ key2 _ vi2 vp2 vs2 =>
      key2 = key ∧ vi2 = vi ∧ vp2 = vp ∧ vs2 = vs
  | .internal _ _ _ l r, .internal _ _ _ l2 r2 =>
      childView H l2 = childView H l ∧ childView H r2 = childView H r
  | _, _ => False

instance (H : Bytes → Digest) : ∀ n m, Decidable (stableEq H n m) := fun n m => by
  unfold stableEq; cases n <;> cases m <;> infer_instance

/-! ## Totality of proof verification (claim C9) -/

/-! ## Canonical-trie machinery (claim C4)

`insertP` is a structurally recursive restatement of `add_child`'s descent
(proved equivalent below on hash-free trees); `canon` builds the canonical
trie of a key/value list by splitting on successive digest bits.  Neither is
a source translation: they are the reasoning layer through which the
faithful `insertList` is related to a permutation-invariant normal form. -/

/-- Result of a single insert: the early-return case (`unchanged`, carrying
the subtree `add_child` returns) or a replacement subtree. -/
inductive InsRes where
  | unchanged (t : Node) : InsRes
  | replaced (t : Node) : InsRes
deriving DecidableEq, Repr

/-- Structural restatement of `add_child`'s loop as a recursion. -/
def insertP (H : Bytes → Digest) (nkey : Digest) (value : Bytes) :
    Node → Nat → Option InsRes
  | .empty, _ => some (.replaced (Node.new_leaf_node H nkey value))
  | .hashn _ _ _ _, _ => none
  | .leaf i p dat key v vi vp vs, d =>
      if nkey = key then
        if hash_leaf_value H nkey value = dat then
          some (.unchanged (.leaf i p dat key v vi vp vs))
        else some (.replaced (Node.new_leaf_node H nkey value))
      else
        match splitPush nkey key d [] SPLIT_FUEL with
        | none => none
        | some (e, emp) =>
            some (.replaced (rebuildLoop nkey (Node.new_leaf_node H nkey value)
              (Node.leaf i p dat key v vi vp vs :: emp) (e + 1)))
  | .internal _ _ _ left right, d =>
      if d = KEY_SIZE then none
      else if has_bit nkey d then
        match insertP H nkey value right (d + 1) with
        | none => none
        | some (.unchanged sub) => some (.unchanged sub)
        | some (.replaced t2) =>
            some (.replaced (Node.new_internal_node left t2))
      else
        match insertP H nkey value left (d + 1) with
        | none => none
        | some (.unchanged sub) => some (.unchanged sub)
        | some (.replaced t2) =>
            some (.replaced (Node.new_internal_node t2 right))

/-- Trees with no unresolved hash node. -/
def HashFree : Node → Prop
  | .hashn _ _ _ _ => False
  | .internal _ _ _ left right => HashFree left ∧ HashFree right
  | _ => True

/-- Internal-nesting height. -/
def Node.height : Node → Nat
  | .internal _ _ _ left right => max left.height right.height + 1
  | _ => 0

/-- The canonical trie of a key/value list at a bit depth: empty list gives
`Empty`, a singleton a fresh leaf, and otherwise an internal node splitting
the list on the current bit (fuel bounds the bit depth). -/
def canon (H : Bytes → Digest) : Nat → List (Digest × Bytes) → Nat → Node
  | _, [], _ => .empty
  | _, [kv], _ => Node.new_leaf_node H kv.1 kv.2
  | 0, _, _ => .empty
  | f + 1, l, d =>
      Node.new_internal_node
        (canon H f (l.filter fun kv => !has_bit kv.1 d) (d + 1))
        (canon H f (l.filter fun kv => has_bit kv.1 d) (d + 1))

/-- Digest/value pairs of an insert sequence. -/
def digs (H : Bytes → Digest) (l : List (Bytes × Bytes)) : List (Digest × Bytes) :=
  l.map fun kv => (H kv.1, kv.2)

/-! ## Theorems -/

theorem has_bit?_eq_some {k : Digest} {i : Nat} (h : i >>> 3 < k.bytes.length) :
    has_bit? k i = some (has_bit k i) := by
  simp [has_bit?, has_bit, h]

theorem rdLE_le16 (x : Nat) : rdLE (le16 x) = x % 65536 := by
  simp only [rdLE, le16, List.foldr]
  omega

theorem rdLE_le32 (x : Nat) : rdLE (le32 x) = x % 4294967296 := by
  simp only [rdLE, le32, List.foldr]
  omega

theorem le16_length (x : Nat) : (le16 x).length = 2 := rfl

theorem le32_length (x : Nat) : (le32 x).length = 4 := rfl

theorem toyHash_wf (data : Bytes) : wfDigest (toyHash data) := by
  constructor
  · simp [toyHash]
  · intro b hb
    simp only [toyHash, List.mem_map] at hb
    obtain ⟨i, _, rfl⟩ := hb
    exact Nat.mod_lt _ (by norm_num)

/-- C8: any sequence of `write_node` / `write_value` calls with no
intervening commit leaves every on-disk file (and hence the meta any
recovery scan would find) unchanged: the calls append exactly their payloads
to the in-memory buffer, and only `commit` touches the files. -/
theorem c8_writes_touch_only_buffer (s : StoreSt) (ops : List WOp) :
    (applyWrites s ops).files = s.files ∧
    (applyWrites s ops).buf = s.buf ++ payloads ops ∧
    (applyWrites s ops).meta = s.meta := by
  induction ops generalizing s with
  | nil => simp [applyWrites, payloads]
  | cons op rest ih =>
      cases op with
      | node d =>
          obtain ⟨h1, h2, h3⟩ := ih ((write_node s d).2)
          refine ⟨h1, ?_, h3⟩
          show (applyWrites (write_node s d).2 rest).buf = s.buf ++ (d ++ payloads rest)
          rw [h2]
          simp [write_node, List.append_assoc]
      | val d =>
          obtain ⟨h1, h2, h3⟩ := ih ((write_value s d).2)
          refine ⟨h1, ?_, h3⟩
          show (applyWrites (write_value s d).2 rest).buf = s.buf ++ (d ++ payloads rest)
          rw [h2]
          simp [write_value, List.append_assoc]

/-- C1: the claim fails on the code.  Failing input: insert `(k1,v1)`,
`(k2,v2)`, then `(k1,v1)` again (an identical re-insert) and commit.
`add_child`'s early `return Some(root)` on finding an identical leaf returns
the descended-to *subtree* as the whole new root, so the tree collapses to
the single leaf `k1` and the committed `get(k2)` is absent — though `k2` was
inserted and never removed.  The second conjunct shows the same sequence
without the duplicate does return `v2`. -/
theorem c1_duplicate_insert_discards_tree :
    ((insertList toyHash freshStore .empty [([0],[7]),([1],[8]),([0],[7])]).bind
        fun t => (treeCommit toyHash t freshStore).bind
        fun r => treeGet toyHash r.2 r.1 [1]) = some none ∧
    ((insertList toyHash freshStore .empty [([0],[7]),([1],[8])]).bind
        fun t => (treeCommit toyHash t freshStore).bind
        fun r => treeGet toyHash r.2 r.1 [1]) = some (some [8]) := by
  exact ⟨rfl, rfl⟩

/-- C2: the claim fails on the code.  Failing input: a two-key tree
(`[0]` and `[1]`) and `remove([3])`, whose key digest is absent.  The
descent reaches an `Empty` child and `remove_child` does
`return Some(root)`, installing that `Empty` as the whole new root — the
tree, whose root hash was nonzero, is wiped.  (Reaching a leaf with a
different key likewise returns just that leaf.) -/
theorem c2_remove_absent_wipes_tree :
    ((insertList toyHash freshStore .empty [([0],[7]),([1],[8])]).bind fun t =>
      (treeRemove toyHash freshStore t [3]).map fun t2 =>
        (decide (Node.hash toyHash t = Digest.zero), t2))
      = some (false, Node.empty) := by
  exact rfl

/-- C3: the claim fails on the code.  Failing input: one insert, one commit,
then reopen the same directory.  `Meta::open` keeps the *tagged* root
position (`root_pos` is not unshifted) and its scan seeks
`SeekFrom::End(-start_pos)` with a from-start offset, so `get_root_node`
reads the root record at the shifted offset; the bytes found there fail
`Node::decode`'s parity `assert!` ("Corrupt database @ leaf"), a panic
that aborts the process (it is not an io `Err`, so `UrkelTree::new`'s
`Err(_)` fallback never runs): reopening traps instead of reproducing the
committed root hash.  The second component pins the committed root hash as
nonzero, so a real root is lost. -/
theorem c3_reopen_loses_committed_root :
    ((insertList toyHash freshStore .empty [([0],[7])]).bind fun t =>
      (treeCommit toyHash t freshStore).map fun r =>
        (treeNew toyHash r.2.files,
         decide (Node.hash toyHash r.1 = Digest.zero)))
      = some (none, false) := by
  exact rfl

/-- C5: the claim fails on the code.  Failing input: a fresh (uncommitted)
tree holding one inserted pair.  `prove` only records `Exists` when the leaf
value can be read back from the *store* (`get_value`), which fails before
commit (the leaf's `vindex`/`vpos` are still 0), so the proof comes back
`Deadend`, not `Exists` — contradicting the spec and the repository's own
`test_inmemory_tree`. -/
theorem c5_prove_uncommitted_is_deadend :
    ((insertList toyHash freshStore .empty [([0],[7])]).bind fun t =>
      (treeProve toyHash freshStore t [0]).map (·.proof_type))
        = some ProofType.Deadend ∧
    ProofType.Deadend ≠ ProofType.Exists := by
  exact ⟨rfl, by decide⟩

/-- C4, counterexample: permutations of the same *set* of (key, value) pairs
can produce different root hashes when two pairs share a key — last write
wins, and the two orders leave different values.  The claim as stated is
false at this input; it holds once the pairs' keys are pairwise distinct
(`c4_root_hash_permutation_invariant`). -/
theorem c4_dup_key_permutation_counterexample :
    ([([0],[1]),([0],[2])] : List (Bytes × Bytes)).Perm [([0],[2]),([0],[1])] ∧
    (insertList toyHash freshStore .empty [([0],[1]),([0],[2])]).map
        (Node.hash toyHash) ≠
      (insertList toyHash freshStore .empty [([0],[2]),([0],[1])]).map
        (Node.hash toyHash) := by
  exact ⟨List.Perm.swap _ _ _, by decide⟩

/-- C6, counterexample: the first two bytes of an encoded leaf are *not* the
little-endian `value_index` unmodified.  For `value_index = 1` they decode
as `3` (the codec writes the parity-tagged `2 * value_index + 1`). -/
theorem c6_first_bytes_not_plain_vindex :
    (Node.encode toyHash
        (.leaf 0 0 Digest.zero (toyHash [0]) (some [7]) 1 0 7)).map
      (fun bs => rdLE (bs.take 2)) = some 3 ∧ (3 : Nat) ≠ 1 := by
  exact ⟨rfl, by decide⟩

/-- C7, counterexample: the codec round-trip fails on the stable field
`value_index` for an encodable leaf with `value_index = 32768` (a legal
`u16`): the encoder's `vindex * 2 + 1` wraps at 16 bits (debug builds
panic), and the decode returns `value_index = 0`. -/
theorem c7_large_vindex_not_roundtrip :
    ((Node.encode toyHash
        (.leaf 0 0 Digest.zero (toyHash [0]) (some [7]) 32768 500 7)).bind
      (fun b => Node.decode b true))
      = some (.leaf 0 0 Digest.zero ⟨(toyHash [0]).bytes⟩ none 0 500 7) ∧
    (0 : Nat) ≠ 32768 := by
  exact ⟨rfl, by decide⟩

theorem take2_le16 (x : Nat) (r : Bytes) : (le16 x ++ r).take 2 = le16 x := rfl

theorem drop2_le16 (x : Nat) (r : Bytes) : (le16 x ++ r).drop 2 = r := rfl

theorem take4_le32 (x : Nat) (r : Bytes) : (le32 x ++ r).take 4 = le32 x := rfl

theorem drop4_le32 (x : Nat) (r : Bytes) : (le32 x ++ r).drop 4 = r := rfl

theorem drop6_hdr (x y : Nat) (r : Bytes) :
    (le16 x ++ (le32 y ++ r)).drop 6 = r := rfl

theorem drop8_hdr (x y z : Nat) (r : Bytes) :
    (le16 x ++ (le32 y ++ (le16 z ++ r))).drop 8 = r := rfl

/-- The leaf encoding, reassociated into its four fields. -/
theorem leaf_encode_eq (H : Bytes → Digest) (i p vi vp vs : Nat)
    (dat key : Digest) (v : Bytes) :
    Node.encode H (.leaf i p dat key (some v) vi vp vs) =
      some (le16 (vi * 2 + 1) ++ (le32 vp ++ (le16 vs ++ key.bytes))) := by
  simp [Node.encode, List.append_assoc]

/-- C6 (amended): the encoded form of a leaf is exactly 40 bytes, and its
first two bytes are the little-endian *parity-tagged* value index
`2 * value_index + 1` (reduced mod `2^16`), not the raw `value_index`. -/
theorem c6_leaf_encoding_length_and_tag (H : Bytes → Digest) (i p vi vp vs : Nat)
    (dat key : Digest) (v : Bytes) (hk : key.bytes.length = 32) :
    ∃ bs, Node.encode H (.leaf i p dat key (some v) vi vp vs) = some bs ∧
      bs.length = 40 ∧ rdLE (bs.take 2) = (vi * 2 + 1) % 65536 := by
  refine ⟨_, leaf_encode_eq H i p vi vp vs dat key v, ?_, ?_⟩
  · simp [List.length_append, le16_length, le32_length, hk]
  · rw [take2_le16, rdLE_le16]

/-- C6 witness: the amended statement at a concrete leaf. -/
theorem c6_witness :
    (toyHash [0]).bytes.length = 32 ∧
    ∃ bs,
      Node.encode toyHash (.leaf 0 0 Digest.zero (toyHash [0]) (some [7]) 1 0 7)
          = some bs ∧
        bs.length = 40 ∧ rdLE (bs.take 2) = (1 * 2 + 1) % 65536 :=
  ⟨by decide,
   c6_leaf_encoding_length_and_tag toyHash 0 0 1 0 7 Digest.zero (toyHash [0]) [7]
     (by decide)⟩

theorem decode_leaf_encode (a vp vs : Nat) (key : Bytes)
    (hk : key.length = 32) (ha : a &&& 1 = 1) (ha2 : a < 65536)
    (hvp : vp < 4294967296) (hvs : vs < 65536) :
    Node.decode (le16 a ++ (le32 vp ++ (le16 vs ++ key))) true =
      some (.leaf 0 0 Digest.zero ⟨key⟩ none (a >>> 1) vp vs) := by
  have hlen : (le16 a ++ (le32 vp ++ (le16 vs ++ key))).length = 40 := by
    simp [le16, le32, hk]
  simp only [Node.decode, hlen, LEAF_NODE_SIZE, take2_le16, drop2_le16, take4_le32,
    drop6_hdr, drop8_hdr, rdLE_le16, rdLE_le32, ne_eq, Nat.mod_eq_of_lt ha2,
    Nat.mod_eq_of_lt hvp, Nat.mod_eq_of_lt hvs, ha]
  simp

theorem drop38_hdr (A LT : Nat) (lh rest : Bytes) (h : lh.length = 32) :
    (le16 A ++ (le32 LT ++ (lh ++ rest))).drop 38 = rest := by
  have he : (le16 A ++ (le32 LT ++ (lh ++ rest))) = (le16 A ++ le32 LT ++ lh) ++ rest := by
    simp [List.append_assoc]
  rw [he, List.drop_left']
  simp [le16, le32, h]

theorem take32_of_len (lh rest : Bytes) (h : lh.length = 32) :
    (lh ++ rest).take 32 = lh :=
  List.take_left' h

theorem decode_internal_encode (A LT RI RT : Nat) (lh rh : Bytes)
    (hlh : lh.length = 32) (hrh : rh.length = 32)
    (hA : A &&& 1 = 0) (hA2 : A < 65536) (hRI : RI < 65536)
    (hLT : LT < 4294967296) (hRT : RT < 4294967296) :
    Node.decode (le16 A ++ (le32 LT ++ (lh ++ (le16 RI ++ (le32 RT ++ rh))))) false =
      some (.internal 0 0 Digest.zero
        (if A >>> 1 ≠ 0 then .hashn (A >>> 1) (LT >>> 1) ⟨lh⟩ (LT &&& 1) else .empty)
        (if RI ≠ 0 then .hashn RI (RT >>> 1) ⟨rh⟩ (RT &&& 1) else .empty)) := by
  have hlen : (le16 A ++ (le32 LT ++ (lh ++ (le16 RI ++ (le32 RT ++ rh))))).length = 76 := by
    simp [le16, le32, hlh, hrh]
  have hd38 : (le16 A ++ (le32 LT ++ (lh ++ (le16 RI ++ (le32 RT ++ rh))))).drop 38
      = le16 RI ++ (le32 RT ++ rh) := drop38_hdr A LT lh _ hlh
  have hd40 : (le16 A ++ (le32 LT ++ (lh ++ (le16 RI ++ (le32 RT ++ rh))))).drop 40
      = le32 RT ++ rh := by
    have he : (le16 A ++ (le32 LT ++ (lh ++ (le16 RI ++ (le32 RT ++ rh)))))
        = (le16 A ++ le32 LT ++ lh ++ le16 RI) ++ (le32 RT ++ rh) := by
      simp [List.append_assoc]
    rw [he, List.drop_left']
    simp [le16, le32, hlh]
  have hd44 : (le16 A ++ (le32 LT ++ (lh ++ (le16 RI ++ (le32 RT ++ rh))))).drop 44 = rh := by
    have he : (le16 A ++ (le32 LT ++ (lh ++ (le16 RI ++ (le32 RT ++ rh)))))
        = (le16 A ++ le32 LT ++ lh ++ le16 RI ++ le32 RT) ++ rh := by
      simp [List.append_assoc]
    rw [he, List.drop_left']
    simp [le16, le32, hlh]
  have hd6 : (le16 A ++ (le32 LT ++ (lh ++ (le16 RI ++ (le32 RT ++ rh))))).drop 6
      = lh ++ (le16 RI ++ (le32 RT ++ rh)) := drop6_hdr A LT _
  have htk : ∀ r, (lh ++ r).take 32 = lh := fun r => List.take_left' hlh
  have htr : rh.take 32 = rh := List.take_of_length_le (by omega)
  simp only [Node.decode, hlen, INTERNAL_NODE_SIZE, take2_le16, drop2_le16, take4_le32,
    hd6, hd38, hd40, hd44, htk, htr, rdLE_le16, rdLE_le32, ne_eq, get_pos_tag,
    Nat.mod_eq_of_lt hA2, Nat.mod_eq_of_lt hRI, Nat.mod_eq_of_lt hLT,
    Nat.mod_eq_of_lt hRT, hA]
  simp

theorem internal_encode_eq (H : Bytes → Digest) (i p : Nat) (dat : Digest)
    (left right : Node) :
    Node.encode H (.internal i p dat left right) =
      some (le16 (left.get_storage_location.1 * 2)
        ++ (le32 (tag_pos_for_leaf_or_internal left.get_storage_location.2 left.is_leaf)
        ++ ((left.hash H).bytes
        ++ (le16 right.get_storage_location.1
        ++ (le32 (tag_pos_for_leaf_or_internal right.get_storage_location.2 right.is_leaf)
        ++ (right.hash H).bytes))))) := by
  simp [Node.encode, List.append_assoc]

theorem c7_codec_roundtrip_stable_fields (H : Bytes → Digest) (n : Node)
    (h : encBounds H n) :
    ∃ m, (n.encode H).bind (fun b => Node.decode b n.is_leaf) = some m ∧
      stableEq H n m := by
  cases n with
  | empty => exact absurd h (by simp [encBounds])
  | hashn i p d il => exact absurd h (by simp [encBounds])
  | leaf i p dat key value vi vp vs =>
      obtain ⟨hv, hk, hvi, hvp, hvs⟩ := h
      obtain ⟨v, rfl⟩ := Option.isSome_iff_exists.mp hv
      refine ⟨.leaf 0 0 Digest.zero key none vi vp vs, ?_, by simp [stableEq]⟩
      rw [leaf_encode_eq]
      show Node.decode _ true = _
      rw [decode_leaf_encode (vi * 2 + 1) vp vs key.bytes hk
        (by rw [Nat.and_one_is_mod]; omega) (by omega) hvp hvs]
      have hsh : (vi * 2 + 1) >>> 1 = vi := by
        rw [Nat.shiftRight_eq_div_pow]; omega
      simp [hsh]
  | internal i p dat left right =>
      obtain ⟨hle, hre, hli, hri, hlp, hrp, hlh, hrh⟩ := h
      have hA : (left.get_storage_location.1 * 2) &&& 1 = 0 := by
        rw [Nat.and_one_is_mod]; omega
      have htagl : tag_pos_for_leaf_or_internal left.get_storage_location.2
          left.is_leaf < 4294967296 := by
        unfold tag_pos_for_leaf_or_internal
        split <;> omega
      have htagr : tag_pos_for_leaf_or_internal right.get_storage_location.2
          right.is_leaf < 4294967296 := by
        unfold tag_pos_for_leaf_or_internal
        split <;> omega
      have hA1 : (left.get_storage_location.1 * 2) >>> 1
          = left.get_storage_location.1 := by
        rw [Nat.shiftRight_eq_div_pow]; omega
      have htl1 : (tag_pos_for_leaf_or_internal left.get_storage_location.2
          left.is_leaf) >>> 1 = left.get_storage_location.2 := by
        rw [Nat.shiftRight_eq_div_pow]
        unfold tag_pos_for_leaf_or_internal
        split <;> omega
      have htl2 : (tag_pos_for_leaf_or_internal left.get_storage_location.2
          left.is_leaf) &&& 1 = if left.is_leaf then 1 else 0 := by
        unfold tag_pos_for_leaf_or_internal
        split <;> (rw [Nat.and_one_is_mod]; omega)
      have htr1 : (tag_pos_for_leaf_or_internal right.get_storage_location.2
          right.is_leaf) >>> 1 = right.get_storage_location.2 := by
        rw [Nat.shiftRight_eq_div_pow]
        unfold tag_pos_for_leaf_or_internal
        split <;> omega
      have htr2 : (tag_pos_for_leaf_or_internal right.get_storage_location.2
          right.is_leaf) &&& 1 = if right.is_leaf then 1 else 0 := by
        unfold tag_pos_for_leaf_or_internal
        split <;> (rw [Nat.and_one_is_mod]; omega)
      refine ⟨.internal 0 0 Digest.zero
          (if left.get_storage_location.1 ≠ 0 then
            .hashn left.get_storage_location.1 left.get_storage_location.2
              (left.hash H) (if left.is_leaf then 1 else 0) else .empty)
          (if right.get_storage_location.1 ≠ 0 then
            .hashn right.get_storage_location.1 right.get_storage_location.2
              (right.hash H) (if right.is_leaf then 1 else 0) else .empty), ?_, ?_⟩
      · rw [internal_encode_eq]
        show Node.decode _ false = _
        rw [decode_internal_encode _ _ _ _ _ _ hlh hrh hA (by omega) (by omega)
          htagl htagr, hA1, htl1, htl2, htr1, htr2]
      · constructor
        · rcases hle with he | hne
          · subst he
            simp [Node.get_storage_location, stableEq, childView]
          · show childView H (if left.get_storage_location.1 ≠ 0 then _ else _)
              = childView H left
            rw [if_pos hne]
            have hflag : ∀ (b : Bool), ((if b then (1 : Nat) else 0) == 1) = b := by
              decide
            show ((left.get_storage_location.1, left.get_storage_location.2,
                ((if left.is_leaf then (1 : Nat) else 0) == 1), left.hash H) :
                Nat × Nat × Bool × Digest) = childView H left
            rw [hflag]
            rfl
        · show childView H (if right.get_storage_location.1 ≠ 0 then _ else _)
              = childView H right
          rcases hre with he | hne
          · subst he
            simp [Node.get_storage_location, stableEq, childView]
          · rw [if_pos hne]
            have hflag : ∀ (b : Bool), ((if b then (1 : Nat) else 0) == 1) = b := by
              decide
            show ((right.get_storage_location.1, right.get_storage_location.2,
                ((if right.is_leaf then (1 : Nat) else 0) == 1), right.hash H) :
                Nat × Nat × Bool × Digest) = childView H right
            rw [hflag]
            rfl

/-- C7 witness: the amended round-trip at a concrete persisted leaf. -/
theorem c7_witness :
    encBounds toyHash (.leaf 1 235 Digest.zero (toyHash [0]) (some [7]) 1 500 7) ∧
    ∃ m,
      ((Node.leaf 1 235 Digest.zero (toyHash [0]) (some [7]) 1 500 7).encode
            toyHash).bind
          (fun b => Node.decode b
            (Node.leaf 1 235 Digest.zero (toyHash [0]) (some [7]) 1 500 7).is_leaf)
        = some m ∧
      stableEq toyHash (.leaf 1 235 Digest.zero (toyHash [0]) (some [7]) 1 500 7) m :=
  ⟨by decide, c7_codec_roundtrip_stable_fields toyHash _ (by decide)⟩

/-- The sibling fold never traps while `depth` stays inside the 256 key
bits: each step reads a bit at the current depth and saturates downward. -/
theorem verifyLoop_total (H : Bytes → Digest) (hashed_key : Digest)
    (hk : hashed_key.bytes.length = 32) :
    ∀ (l : List Digest) (next : Digest) (d : Nat), d < 256 →
      ∃ r, verifyLoop H hashed_key l next d = some r := by
  intro l
  induction l with
  | nil => exact fun next d _ => ⟨next, rfl⟩
  | cons n rest ih =>
      intro next d hd
      have hb : d >>> 3 < hashed_key.bytes.length := by
        rw [Nat.shiftRight_eq_div_pow, hk]
        omega
      rw [verifyLoop, has_bit?_eq_some hb]
      exact ih _ (if 0 < d then d - 1 else d) (by split <;> omega)

/-- C9, counterexample: `verify` is *not* total on sane proofs.  A sane
`Exists` proof with 257 sibling hashes starts its fold at `depth = 256` and
the first `has_bit(&hashed_key, depth)` reads `key.0[32]`, out of bounds on
the 32-byte digest — the call traps (modelled `none`). -/
theorem c9_verify_traps_on_257_siblings :
    (Proof.mk .Exists (List.replicate 257 Digest.zero) none none
        (some [5])).is_sane = true ∧
    Proof.verify toyHash
        ⟨.Exists, List.replicate 257 Digest.zero, none, none, some [5]⟩
        Digest.zero [0] = none := by
  exact ⟨rfl, rfl⟩

/-- C9 (amended): `verify` is total on sane proofs carrying at most 256
sibling hashes: it returns `Ok` or `Err` and never traps.  In particular an
`Exists` proof with *zero* siblings is safe: the `self.depth() - 1`
subtraction wraps on the unsigned integer (release semantics; a debug build
would already panic there), and the wrapped value is never used because the
fold body runs once per sibling. -/
theorem c9_verify_total_bounded (H : Bytes → Digest) (p : Proof)
    (root : Digest) (nkey : Bytes) (hs : p.is_sane = true)
    (hlen : p.node_hashes.length ≤ 256) (hk : (H nkey).bytes.length = 32) :
    ∃ r, Proof.verify H p root nkey = some r := by
  suffices hsome : (Proof.verify H p root nkey).isSome = true by
    obtain ⟨r, hr⟩ := Option.isSome_iff_exists.mp hsome
    exact ⟨r, hr⟩
  unfold Proof.verify
  rw [if_neg (by simp [hs])]
  split
  · rfl
  · rename_i leaf hleaf
    show (match verifyLoop H (H nkey) p.node_hashes.reverse leaf
          ((p.node_hashes.length + (18446744073709551616 - 1))
            % 18446744073709551616) with
      | none => none
      | some next =>
          if next ≠ root then some (Except.error "Head Mismatch")
          else
            match p.value with
            | some v => some (Except.ok v)
            | none => some (Except.error "Bad Verification")).isSome = true
    rcases hvl : verifyLoop H (H nkey) p.node_hashes.reverse leaf
        ((p.node_hashes.length + (18446744073709551616 - 1))
          % 18446744073709551616) with _ | next
    · exfalso
      rcases Nat.eq_zero_or_pos p.node_hashes.length with h0 | hpos
      · have hnil : p.node_hashes = [] := List.eq_nil_of_length_eq_zero h0
        rw [hnil] at hvl
        simp [verifyLoop] at hvl
      · have hdep : (p.node_hashes.length + (18446744073709551616 - 1))
            % 18446744073709551616 = p.node_hashes.length - 1 := by omega
        rw [hdep] at hvl
        obtain ⟨r0, hr0⟩ := verifyLoop_total H (H nkey) hk
          p.node_hashes.reverse leaf (p.node_hashes.length - 1) (by omega)
        rw [hr0] at hvl
        exact Option.noConfusion hvl
    · show (if next ≠ root then some (Except.error "Head Mismatch")
          else
            match p.value with
            | some v => some (Except.ok v)
            | none => some (Except.error "Bad Verification")).isSome = true
      split
      · rfl
      · split <;> rfl

/-- C9 witness: the amended totality at the concrete zero-sibling `Exists`
proof the claim singles out. -/
theorem c9_witness :
    (Proof.mk .Exists [] none none (some [5])).is_sane = true ∧
    (Proof.mk .Exists [] none none (some [5])).node_hashes.length ≤ 256 ∧
    ∃ r, Proof.verify toyHash ⟨.Exists, [], none, none, some [5]⟩
      Digest.zero [0] = some r :=
  ⟨rfl, by decide,
   c9_verify_total_bounded toyHash ⟨.Exists, [], none, none, some [5]⟩
     Digest.zero [0] rfl (by decide) (by decide)⟩

theorem c10_pipeline (H : Bytes → Digest) (k v : Bytes)
    (hk32 : (H k).bytes.length = 32)
    (hlen : 65535 < v.length) (hmax : v.length + 56 < 4294967296) :
    ((insertList H freshStore .empty [(k, v)]).bind fun t =>
      (treeCommit H t freshStore).bind fun r => treeGet H r.2 r.1 k)
      = some (some (v.take (v.length % 65536))) := by
  have h1 : insertList H freshStore .empty [(k, v)]
      = some (Node.new_leaf_node H (H k) v) := rfl
  rw [h1]
  have hvs : v.length % 65536 < 65536 := Nat.mod_lt _ (by norm_num)
  have henclen : ((le16 (1 * 2 + 1) ++ le32 0 ++ le16 (v.length % 65536) ++ (H k).bytes) : Bytes).length = 40 := by
    simp [le16, le32, hk32]
  have hmet16 : ((Meta.mk 1 (v.length + 40 + (16 - (v.length + 40) % 16)) 1 v.length true).encode : Bytes).length = 16 := by
    simp [Meta.encode, le16, le32]
  have hml : v.length % 4294967296 = v.length := Nat.mod_eq_of_lt (by omega)
  have h2 : write_to_store H (Node.new_leaf_node H (H k) v) freshStore
      = some (.hashn 1 ((0 + v.length) % 4294967296) (hash_leaf_value H (H k) v) 1,
        { files := [(1, [])], meta := Meta.default, active := 1,
          pos := ((0 + v.length) % 4294967296
            + ((le16 (1 * 2 + 1) ++ le32 0 ++ le16 (v.length % 65536) ++ (H k).bytes) : Bytes).length) % 4294967296,
          buf := ([] ++ v) ++ (le16 (1 * 2 + 1) ++ le32 0 ++ le16 (v.length % 65536) ++ (H k).bytes) }) := rfl
  simp only [Nat.zero_add, hml, henclen] at h2
  have hml40 : (v.length + 40) % 4294967296 = v.length + 40 :=
    Nat.mod_eq_of_lt (by omega)
  rw [hml40] at h2
  simp only [List.nil_append] at h2
  have h3 : treeCommit H (Node.new_leaf_node H (H k) v) freshStore
      = some (.hashn 1 v.length (hash_leaf_value H (H k) v) 1,
        { files := [(1, (((v ++ (le16 (1 * 2 + 1) ++ le32 0 ++ le16 (v.length % 65536) ++ (H k).bytes)) ++ List.replicate (16 - (v.length + 40) % 16) 0)
            ++ (Meta.mk 1 ((v.length + 40 + (16 - (v.length + 40) % 16))
                % 4294967296) 1 v.length true).encode))],
          meta := Meta.mk 1 ((v.length + 40 + (16 - (v.length + 40) % 16))
              % 4294967296) 1 v.length true,
          active := 1,
          pos := (((v.length + 40 + (16 - (v.length + 40) % 16))
              % 4294967296) + 16) % 4294967296,
          buf := [] }) := by
    unfold treeCommit
    rw [h2]
    rfl
  have hml56 : (v.length + 40 + (16 - (v.length + 40) % 16)) % 4294967296
      = v.length + 40 + (16 - (v.length + 40) % 16) :=
    Nat.mod_eq_of_lt (by omega)
  rw [hml56] at h3
  show ((treeCommit H (Node.new_leaf_node H (H k) v) freshStore).bind
      fun r => treeGet H r.2 r.1 k) = some (some (v.take (v.length % 65536)))
  rw [h3]
  have hsplit : (((v ++ (le16 (1 * 2 + 1) ++ le32 0 ++ le16 (v.length % 65536) ++ (H k).bytes)) ++ List.replicate (16 - (v.length + 40) % 16) 0) ++ (Meta.mk 1 (v.length + 40 + (16 - (v.length + 40) % 16)) 1 v.length true).encode) = (v ++ ((le16 (1 * 2 + 1) ++ le32 0 ++ le16 (v.length % 65536) ++ (H k).bytes) ++ (List.replicate (16 - (v.length + 40) % 16) 0 ++ (Meta.mk 1 (v.length + 40 + (16 - (v.length + 40) % 16)) 1 v.length true).encode))) := by
    simp [List.append_assoc]
  have hassoc : ((le16 (1 * 2 + 1) ++ le32 0 ++ le16 (v.length % 65536) ++ (H k).bytes) : Bytes)
      = le16 (1 * 2 + 1) ++ (le32 0 ++ (le16 (v.length % 65536) ++ (H k).bytes)) := by
    simp [List.append_assoc]
  have hget : get_node
      { files := [(1, (((v ++ (le16 (1 * 2 + 1) ++ le32 0 ++ le16 (v.length % 65536) ++ (H k).bytes)) ++ List.replicate (16 - (v.length + 40) % 16) 0) ++ (Meta.mk 1 (v.length + 40 + (16 - (v.length + 40) % 16)) 1 v.length true).encode))],
          meta := Meta.mk 1 (v.length + 40 + (16 - (v.length + 40) % 16)) 1 v.length true,
          active := 1,
          pos := (v.length + 40 + (16 - (v.length + 40) % 16) + 16) % 4294967296,
          buf := [] }
      1 v.length ((Node.hashn 1 v.length (hash_leaf_value H (H k) v) 1).is_leaf)
      = some (Node.leaf 0 0 Digest.zero ⟨(H k).bytes⟩ none 1 0 (v.length % 65536)) := by
    have hred : get_node
        { files := [(1, (((v ++ (le16 (1 * 2 + 1) ++ le32 0 ++ le16 (v.length % 65536) ++ (H k).bytes)) ++ List.replicate (16 - (v.length + 40) % 16) 0) ++ (Meta.mk 1 (v.length + 40 + (16 - (v.length + 40) % 16)) 1 v.length true).encode))],
          meta := Meta.mk 1 (v.length + 40 + (16 - (v.length + 40) % 16)) 1 v.length true,
          active := 1,
          pos := (v.length + 40 + (16 - (v.length + 40) % 16) + 16) % 4294967296,
          buf := [] }
        1 v.length ((Node.hashn 1 v.length (hash_leaf_value H (H k) v) 1).is_leaf)
        = Node.decode ((((((v ++ (le16 (1 * 2 + 1) ++ le32 0 ++ le16 (v.length % 65536) ++ (H k).bytes)) ++ List.replicate (16 - (v.length + 40) % 16) 0) ++ (Meta.mk 1 (v.length + 40 + (16 - (v.length + 40) % 16)) 1 v.length true).encode).drop v.length).take 40)
            ++ List.replicate (40 - (((((v ++ (le16 (1 * 2 + 1) ++ le32 0 ++ le16 (v.length % 65536) ++ (H k).bytes)) ++ List.replicate (16 - (v.length + 40) % 16) 0) ++ (Meta.mk 1 (v.length + 40 + (16 - (v.length + 40) % 16)) 1 v.length true).encode).drop v.length).take 40).length) 0)
            true := rfl
    rw [hred, hsplit, List.drop_left, List.take_left' henclen, henclen]
    have hrep : List.replicate (40 - 40) (0 : Nat) = ([] : Bytes) := rfl
    rw [hrep, List.append_nil, hassoc,
      decode_leaf_encode (1 * 2 + 1) 0 (v.length % 65536) (H k).bytes hk32
        (by decide) (by norm_num) (by norm_num) hvs]
    rfl
  have hval : get_value
      { files := [(1, (((v ++ (le16 (1 * 2 + 1) ++ le32 0 ++ le16 (v.length % 65536) ++ (H k).bytes)) ++ List.replicate (16 - (v.length + 40) % 16) 0) ++ (Meta.mk 1 (v.length + 40 + (16 - (v.length + 40) % 16)) 1 v.length true).encode))],
          meta := Meta.mk 1 (v.length + 40 + (16 - (v.length + 40) % 16)) 1 v.length true,
          active := 1,
          pos := (v.length + 40 + (16 - (v.length + 40) % 16) + 16) % 4294967296,
          buf := [] }
      1 0 (v.length % 65536) = some (v.take (v.length % 65536)) := by
    have hred : get_value
        { files := [(1, (((v ++ (le16 (1 * 2 + 1) ++ le32 0 ++ le16 (v.length % 65536) ++ (H k).bytes)) ++ List.replicate (16 - (v.length + 40) % 16) 0) ++ (Meta.mk 1 (v.length + 40 + (16 - (v.length + 40) % 16)) 1 v.length true).encode))],
          meta := Meta.mk 1 (v.length + 40 + (16 - (v.length + 40) % 16)) 1 v.length true,
          active := 1,
          pos := (v.length + 40 + (16 - (v.length + 40) % 16) + 16) % 4294967296,
          buf := [] }
        1 0 (v.length % 65536)
        = if 0 + (v.length % 65536) ≤ (((v ++ (le16 (1 * 2 + 1) ++ le32 0 ++ le16 (v.length % 65536) ++ (H k).bytes)) ++ List.replicate (16 - (v.length + 40) % 16) 0) ++ (Meta.mk 1 (v.length + 40 + (16 - (v.length + 40) % 16)) 1 v.length true).encode).length
          then some (((((v ++ (le16 (1 * 2 + 1) ++ le32 0 ++ le16 (v.length % 65536) ++ (H k).bytes)) ++ List.replicate (16 - (v.length + 40) % 16) 0) ++ (Meta.mk 1 (v.length + 40 + (16 - (v.length + 40) % 16)) 1 v.length true).encode).drop 0).take (v.length % 65536)) else none := rfl
    have hflen : (((v ++ (le16 (1 * 2 + 1) ++ le32 0 ++ le16 (v.length % 65536) ++ (H k).bytes)) ++ List.replicate (16 - (v.length + 40) % 16) 0) ++ (Meta.mk 1 (v.length + 40 + (16 - (v.length + 40) % 16)) 1 v.length true).encode).length = v.length + 40 + (16 - (v.length + 40) % 16) + 16 := by
      simp only [List.length_append, henclen, hmet16, List.length_replicate]
    rw [hred, if_pos (by rw [hflen]; omega), List.drop_zero, hsplit,
      List.take_append_of_le_length (by omega)]
  show (match get_node
      { files := [(1, (((v ++ (le16 (1 * 2 + 1) ++ le32 0 ++ le16 (v.length % 65536) ++ (H k).bytes)) ++ List.replicate (16 - (v.length + 40) % 16) 0) ++ (Meta.mk 1 (v.length + 40 + (16 - (v.length + 40) % 16)) 1 v.length true).encode))],
          meta := Meta.mk 1 (v.length + 40 + (16 - (v.length + 40) % 16)) 1 v.length true,
          active := 1,
          pos := (v.length + 40 + (16 - (v.length + 40) % 16) + 16) % 4294967296,
          buf := [] }
      1 v.length ((Node.hashn 1 v.length (hash_leaf_value H (H k) v) 1).is_leaf) with
    | some n => getGo H
        { files := [(1, (((v ++ (le16 (1 * 2 + 1) ++ le32 0 ++ le16 (v.length % 65536) ++ (H k).bytes)) ++ List.replicate (16 - (v.length + 40) % 16) 0) ++ (Meta.mk 1 (v.length + 40 + (16 - (v.length + 40) % 16)) 1 v.length true).encode))],
          meta := Meta.mk 1 (v.length + 40 + (16 - (v.length + 40) % 16)) 1 v.length true,
          active := 1,
          pos := (v.length + 40 + (16 - (v.length + 40) % 16) + 16) % 4294967296,
          buf := [] }
        (H k) (n.update_data_value (hash_leaf_value H (H k) v)) 0 599
    | none => none) = some (some (v.take (v.length % 65536)))
  rw [hget]
  show (if H k ≠ (⟨(H k).bytes⟩ : Digest) then some none
      else match get_value
        { files := [(1, (((v ++ (le16 (1 * 2 + 1) ++ le32 0 ++ le16 (v.length % 65536) ++ (H k).bytes)) ++ List.replicate (16 - (v.length + 40) % 16) 0) ++ (Meta.mk 1 (v.length + 40 + (16 - (v.length + 40) % 16)) 1 v.length true).encode))],
          meta := Meta.mk 1 (v.length + 40 + (16 - (v.length + 40) % 16)) 1 v.length true,
          active := 1,
          pos := (v.length + 40 + (16 - (v.length + 40) % 16) + 16) % 4294967296,
          buf := [] }
        1 0 (v.length % 65536) with
      | some w => some (some w)
      | none => some none) = some (some (v.take (v.length % 65536)))
  rw [show (⟨(H k).bytes⟩ : Digest) = H k from rfl, if_neg (by simp), hval]

/-- C10: `insert` accepts a value of any byte length but `new_leaf_node`
records its size as the length reduced mod `2^16` (the `as u16` cast); for
every value longer than 65535 bytes the recorded `value_size` disagrees
with the value's length, and a post-commit `get` reads back the wrong
number of bytes (`value_size` many, not the value's length).  The size
hypotheses keep the file positions inside their `u32` fields. -/
theorem c10_value_size_truncated (H : Bytes → Digest) (k v : Bytes)
    (hk : wfDigest (H k)) (hlen : 65535 < v.length)
    (hmax : v.length + 56 < 4294967296) :
    Node.new_leaf_node H (H k) v
      = .leaf 0 0 (hash_leaf_value H (H k) v) (H k) (some v) 0 0
          (v.length % 65536) ∧
    v.length % 65536 ≠ v.length ∧
    ∃ w, ((insertList H freshStore .empty [(k, v)]).bind fun t =>
        (treeCommit H t freshStore).bind fun r => treeGet H r.2 r.1 k)
      = some (some w) ∧ w.length = v.length % 65536 ∧ w.length ≠ v.length := by
  refine ⟨rfl, by omega, v.take (v.length % 65536),
    c10_pipeline H k v hk.1 hlen hmax, ?_, ?_⟩
  · rw [List.length_take]
    omega
  · rw [List.length_take]
    omega

/-- C10 witness: the truncation at a concrete 65536-byte value. -/
theorem c10_witness :
    wfDigest (toyHash [0]) ∧ 65535 < (List.replicate 65536 7 : Bytes).length ∧
    ((List.replicate 65536 7 : Bytes).length + 56 < 4294967296) ∧
    (Node.new_leaf_node toyHash (toyHash [0]) (List.replicate 65536 7)
      = .leaf 0 0 (hash_leaf_value toyHash (toyHash [0]) (List.replicate 65536 7))
          (toyHash [0]) (some (List.replicate 65536 7)) 0 0
          ((List.replicate 65536 7 : Bytes).length % 65536) ∧
    (List.replicate 65536 7 : Bytes).length % 65536
        ≠ (List.replicate 65536 7 : Bytes).length ∧
    ∃ w, ((insertList toyHash freshStore .empty [([0], List.replicate 65536 7)]).bind
          fun t => (treeCommit toyHash t freshStore).bind
          fun r => treeGet toyHash r.2 r.1 [0])
      = some (some w) ∧ w.length = (List.replicate 65536 7 : Bytes).length % 65536
        ∧ w.length ≠ (List.replicate 65536 7 : Bytes).length) :=
  ⟨toyHash_wf [0], by rw [List.length_replicate]; omega, by rw [List.length_replicate]; omega,
   c10_value_size_truncated toyHash [0] (List.replicate 65536 7)
     (toyHash_wf [0]) (by rw [List.length_replicate]; omega)
     (by rw [List.length_replicate]; omega)⟩

theorem canon_nil (H : Bytes → Digest) (f d : Nat) : canon H f [] d = .empty := by
  cases f <;> rfl

theorem canon_single (H : Bytes → Digest) (f d : Nat) (kv : Digest × Bytes) :
    canon H f [kv] d = Node.new_leaf_node H kv.1 kv.2 := by
  cases f <;> rfl

theorem canon_cons (H : Bytes → Digest) (f d : Nat) (a b : Digest × Bytes)
    (t : List (Digest × Bytes)) :
    canon H (f + 1) (a :: b :: t) d =
      Node.new_internal_node
        (canon H f ((a :: b :: t).filter fun kv => !has_bit kv.1 d) (d + 1))
        (canon H f ((a :: b :: t).filter fun kv => has_bit kv.1 d) (d + 1)) := rfl

theorem splitPush_map (nkey okey : Digest) :
    ∀ (f d : Nat) (ns : List Node),
      splitPush nkey okey d ns f
        = (splitPush nkey okey d [] f).map fun p => (p.1, p.2 ++ ns) := by
  intro f
  induction f with
  | zero => intro d ns; rfl
  | succ f ih =>
      intro d ns
      cases hb1 : has_bit? nkey d with
      | none => simp [splitPush, hb1]
      | some b1 =>
          cases hb2 : has_bit? okey d with
          | none => simp [splitPush, hb1, hb2]
          | some b2 =>
              rw [splitPush, hb1, hb2]
              conv_rhs => rw [splitPush, hb1, hb2]
              show (if b1 = b2 then splitPush nkey okey (d + 1) (.empty :: ns) f
                  else some (d, ns))
                = Option.map (fun p => (p.1, p.2 ++ ns))
                  (if b1 = b2 then splitPush nkey okey (d + 1) [.empty] f
                  else some (d, []))
              by_cases hb : b1 = b2
              · rw [if_pos hb, if_pos hb, ih (d + 1) (.empty :: ns),
                  ih (d + 1) [.empty]]
                cases splitPush nkey okey (d + 1) [] f with
                | none => rfl
                | some p => simp
              · rw [if_neg hb, if_neg hb]
                rfl

theorem splitPush_shape (nkey okey : Digest) :
    ∀ (f d e : Nat) (l : List Node),
      splitPush nkey okey d [] f = some (e, l) →
      d ≤ e ∧ l = List.replicate (e - d) .empty := by
  intro f
  induction f with
  | zero => intro d e l h; exact absurd h (by simp [splitPush])
  | succ f ih =>
      intro d e l h
      rw [splitPush] at h
      cases hb1 : has_bit? nkey d with
      | none => rw [hb1] at h; exact absurd h (by simp)
      | some b1 =>
          cases hb2 : has_bit? okey d with
          | none => rw [hb1, hb2] at h; exact absurd h (by simp)
          | some b2 =>
              rw [hb1, hb2] at h
              change (if b1 = b2 then splitPush nkey okey (d + 1) [.empty] f
                  else some (d, [])) = some (e, l) at h
              by_cases hb : b1 = b2
              · rw [if_pos hb, splitPush_map nkey okey f (d + 1) [.empty]] at h
                cases hsp : splitPush nkey okey (d + 1) [] f with
                | none => rw [hsp] at h; exact absurd h (by simp)
                | some p =>
                    rw [hsp] at h
                    simp only [Option.map_some', Option.some.injEq,
                      Prod.mk.injEq] at h
                    obtain ⟨he, hl⟩ := h
                    obtain ⟨hd1, hrep⟩ := ih (d + 1) p.1 p.2 (by rw [hsp])
                    subst he
                    constructor
                    · omega
                    · rw [← hl, hrep]
                      have hn : p.1 - d = (p.1 - (d + 1)) + 1 := by omega
                      rw [hn, List.replicate_succ' (p.1 - (d + 1)) Node.empty]
              · rw [if_neg hb] at h
                simp only [Option.some.injEq, Prod.mk.injEq] at h
                obtain ⟨rfl, rfl⟩ := h
                simp

theorem has_bit?_some_of_wf {k : Digest} (hw : wfDigest k) {i : Nat}
    (hi : i < 256) : has_bit? k i = some (has_bit k i) := by
  apply has_bit?_eq_some
  rw [Nat.shiftRight_eq_div_pow, hw.1]
  omega

/-- The shared-prefix loop lands exactly on the first differing bit. -/
theorem splitPush_eq (nkey okey : Digest) (hwn : wfDigest nkey)
    (hwo : wfDigest okey) :
    ∀ (f d j : Nat), j < 256 → d ≤ j →
      has_bit nkey j ≠ has_bit okey j →
      (∀ i, d ≤ i → i < j → has_bit nkey i = has_bit okey i) →
      j - d < f →
      splitPush nkey okey d [] f = some (j, List.replicate (j - d) .empty) := by
  intro f
  induction f with
  | zero => intro d j _ _ _ _ hf; omega
  | succ f ih =>
      intro d j hj hdj hdiff hagr hf
      rw [splitPush, has_bit?_some_of_wf hwn (by omega),
        has_bit?_some_of_wf hwo (by omega)]
      show (if has_bit nkey d = has_bit okey d
          then splitPush nkey okey (d + 1) [.empty] f else some (d, []))
        = some (j, List.replicate (j - d) .empty)
      rcases Nat.lt_or_ge d j with hlt | hge
      · rw [if_pos (hagr d le_rfl hlt),
          splitPush_map nkey okey f (d + 1) [.empty],
          ih (d + 1) j hj (by omega) hdiff (fun i h1 h2 => hagr i (by omega) h2)
            (by omega)]
        simp only [Option.map_some']
        have hn : j - d = (j - (d + 1)) + 1 := by omega
        rw [hn, List.replicate_succ' (j - (d + 1)) Node.empty]
      · have hd : d = j := by omega
        subst hd
        rw [if_neg hdiff]
        simp

theorem rebuildLoop_append (nkey : Digest) :
    ∀ (xs ys : List Node) (nr : Node) (dep : Nat),
      rebuildLoop nkey nr (xs ++ ys) dep
        = rebuildLoop nkey (rebuildLoop nkey nr xs dep) ys (dep - xs.length) := by
  intro xs
  induction xs with
  | nil => intro ys nr dep; simp [rebuildLoop]
  | cons x t ih =>
      intro ys nr dep
      show rebuildLoop nkey _ (t ++ ys) (dep - 1) = _
      rw [ih]
      show rebuildLoop nkey _ ys (dep - 1 - t.length)
        = rebuildLoop nkey _ ys (dep - (t.length + 1))
      have he : dep - 1 - t.length = dep - (t.length + 1) := by omega
      rw [he]
      rfl

theorem rebuildLoop_step (nkey : Digest) (n nr : Node) (ns : List Node) (d : Nat) :
    rebuildLoop nkey nr (n :: ns) (d + 1)
      = rebuildLoop nkey
          (if has_bit nkey d then Node.new_internal_node n nr
           else Node.new_internal_node nr n) ns d := by
  show rebuildLoop nkey
      (if has_bit nkey (d + 1 - 1) then Node.new_internal_node n nr
       else Node.new_internal_node nr n) ns (d + 1 - 1) = _
  rw [Nat.add_sub_cancel]

/-- The `add_child` loop agrees with the structural `insertP` on hash-free
trees (fuel dominating the tree height), the accumulated siblings being
spent by the final rebuild. -/
theorem addChildGo_insertP (H : Bytes → Digest) (s : StoreSt) (nkey : Digest)
    (value : Bytes) :
    ∀ (t : Node) (d : Nat) (ns : List Node) (f : Nat), HashFree t →
      t.height + 1 ≤ f →
      addChildGo H s nkey (hash_leaf_value H nkey value) value t d ns f
        = match insertP H nkey value t d with
          | none => none
          | some (.unchanged sub) => some sub
          | some (.replaced t2) => some (rebuildLoop nkey t2 ns d) := by
  intro t
  induction t with
  | empty =>
      intro d ns f _ hf
      cases f with
      | zero => omega
      | succ f => rfl
  | hashn i p dat il =>
      intro d ns f hhf _
      exact absurd hhf (by simp [HashFree])
  | leaf i p dat key v vi vp vs =>
      intro d ns f _ hf
      cases f with
      | zero => omega
      | succ f =>
          show (if nkey = key then
              if hash_leaf_value H nkey value = dat then
                some (Node.leaf i p dat key v vi vp vs)
              else some (rebuildLoop nkey (Node.new_leaf_node H nkey value) ns d)
            else
              match splitPush nkey key d ns SPLIT_FUEL with
              | none => none
              | some (e, ns1) =>
                  some (rebuildLoop nkey (Node.new_leaf_node H nkey value)
                    (Node.leaf i p dat key v vi vp vs :: ns1) (e + 1))) = _
          simp only [insertP]
          by_cases hk : nkey = key
          · by_cases hh : hash_leaf_value H nkey value = dat
            · simp only [if_pos hk, if_pos hh]
            · simp only [if_pos hk, if_neg hh]
          · simp only [if_neg hk]
            rw [splitPush_map nkey key SPLIT_FUEL d ns]
            cases hsp : splitPush nkey key d [] SPLIT_FUEL with
            | none => rfl
            | some pr =>
                obtain ⟨hde, hrep⟩ :=
                  splitPush_shape nkey key SPLIT_FUEL d pr.1 pr.2 hsp
                simp only [Option.map_some']
                have hcons : Node.leaf i p dat key v vi vp vs :: (pr.2 ++ ns)
                    = (Node.leaf i p dat key v vi vp vs :: pr.2) ++ ns := rfl
                rw [hcons, rebuildLoop_append]
                have hlen : (Node.leaf i p dat key v vi vp vs :: pr.2).length
                    = (pr.1 - d) + 1 := by
                  simp [hrep]
                rw [hlen]
                have hd2 : pr.1 + 1 - (pr.1 - d + 1) = d := by omega
                rw [hd2]
  | internal i p dat left right ihl ihr =>
      intro d ns f hhf hf
      cases f with
      | zero => omega
      | succ f =>
          have hhl : HashFree left := hhf.1
          have hhr : HashFree right := hhf.2
          have hhgt : max left.height right.height + 1 + 1 ≤ f + 1 := hf
          show (if d = KEY_SIZE then none
            else if has_bit nkey d then
              addChildGo H s nkey (hash_leaf_value H nkey value) value right
                (d + 1) (left :: ns) f
            else
              addChildGo H s nkey (hash_leaf_value H nkey value) value left
                (d + 1) (right :: ns) f) = _
          simp only [insertP]
          by_cases hd : d = KEY_SIZE
          · simp only [if_pos hd]
          · simp only [if_neg hd]
            by_cases hb : has_bit nkey d
            · simp only [hb, if_true]
              rw [ihr (d + 1) (left :: ns) f hhr (by omega)]
              cases hins : insertP H nkey value right (d + 1) with
              | none => rfl
              | some r =>
                  cases r with
                  | unchanged sub => rfl
                  | replaced t2 =>
                      show some (rebuildLoop nkey t2 (left :: ns) (d + 1))
                        = some (rebuildLoop nkey (Node.new_internal_node left t2) ns d)
                      rw [rebuildLoop_step]
                      rw [if_pos hb]
            · simp only [hb, if_false]
              rw [ihl (d + 1) (right :: ns) f hhl (by omega)]
              cases hins : insertP H nkey value left (d + 1) with
              | none => rfl
              | some r =>
                  cases r with
                  | unchanged sub => rfl
                  | replaced t2 =>
                      show some (rebuildLoop nkey t2 (right :: ns) (d + 1))
                        = some (rebuildLoop nkey (Node.new_internal_node t2 right) ns d)
                      rw [rebuildLoop_step]
                      rw [if_neg hb]

theorem has_bit_testBit (k : Digest) (i : Nat) :
    has_bit k i = (k.bytes.getD (i >>> 3) 0).testBit (7 - (i &&& 7)) := by
  unfold has_bit Nat.testBit
  rcases Nat.mod_two_eq_zero_or_one ((k.bytes.getD (i >>> 3) 0) >>> (7 - (i &&& 7)))
    with h | h
  · rw [Nat.and_one_is_mod, h, Nat.land_comm, Nat.and_one_is_mod, h]
    rfl
  · rw [Nat.and_one_is_mod, h, Nat.land_comm, Nat.and_one_is_mod, h]
    rfl

theorem byte_ne_testBit {x y : Nat} (hx : x < 256) (hy : y < 256) (hne : x ≠ y) :
    ∃ t, t < 8 ∧ x.testBit t ≠ y.testBit t := by
  by_contra hall
  push_neg at hall
  refine hne (Nat.eq_of_testBit_eq fun i => ?_)
  rcases Nat.lt_or_ge i 8 with hi | hi
  · exact hall i hi
  · have h2i : (256 : Nat) ≤ 2 ^ i := by
      calc (256 : Nat) = 2 ^ 8 := by norm_num
        _ ≤ 2 ^ i := Nat.pow_le_pow_right (by norm_num) hi
    rw [Nat.testBit_lt_two_pow (lt_of_lt_of_le hx h2i),
      Nat.testBit_lt_two_pow (lt_of_lt_of_le hy h2i)]

/-- Two distinct well-formed digests differ at some bit below 256. -/
theorem wf_ne_has_bit {k1 k2 : Digest} (h1 : wfDigest k1) (h2 : wfDigest k2)
    (hne : k1 ≠ k2) : ∃ j, j < 256 ∧ has_bit k1 j ≠ has_bit k2 j := by
  have hlen : k1.bytes.length = k2.bytes.length := by rw [h1.1, h2.1]
  have hbne : k1.bytes ≠ k2.bytes := fun h => hne (by cases k1; cases k2; simpa using h)
  have hex : ∃ m, m < k1.bytes.length ∧ k1.bytes.getD m 0 ≠ k2.bytes.getD m 0 := by
    by_contra hall
    push_neg at hall
    refine hbne (List.ext_getElem hlen fun m hm1 hm2 => ?_)
    have := hall m hm1
    rwa [List.getD_eq_getElem _ _ hm1, List.getD_eq_getElem _ _ hm2] at this
  obtain ⟨m, hm, hbytes⟩ := hex
  have hx : k1.bytes.getD m 0 < 256 := by
    rw [List.getD_eq_getElem _ _ hm]
    exact h1.2 _ (List.getElem_mem _)
  have hy : k2.bytes.getD m 0 < 256 := by
    rw [List.getD_eq_getElem _ _ (hlen ▸ hm)]
    exact h2.2 _ (List.getElem_mem _)
  obtain ⟨t, ht8, htne⟩ := byte_ne_testBit hx hy hbytes
  refine ⟨8 * m + (7 - t), by rw [h1.1] at hm; omega, ?_⟩
  have hoct : (8 * m + (7 - t)) >>> 3 = m := by
    rw [Nat.shiftRight_eq_div_pow]
    omega
  have hbit : 7 - ((8 * m + (7 - t)) &&& 7) = t := by
    have h7 : (7 : Nat) = 2 ^ 3 - 1 := rfl
    rw [h7, Nat.and_pow_two_sub_one_eq_mod]
    omega
  rw [has_bit_testBit, has_bit_testBit, hoct, hbit]
  exact htne

theorem canon_hashfree (H : Bytes → Digest) :
    ∀ (f : Nat) (l : List (Digest × Bytes)) (d : Nat), HashFree (canon H f l d) := by
  intro f
  induction f with
  | zero =>
      intro l d
      rcases l with _ | ⟨a, _ | ⟨b, t⟩⟩
      · rw [canon_nil]; trivial
      · rw [canon_single]; trivial
      · rw [show canon H 0 (a :: b :: t) d = .empty from rfl]; trivial
  | succ f ih =>
      intro l d
      rcases l with _ | ⟨a, _ | ⟨b, t⟩⟩
      · rw [canon_nil]; trivial
      · rw [canon_single]; trivial
      · rw [canon_cons]
        exact ⟨ih _ _, ih _ _⟩

theorem height_canon (H : Bytes → Digest) :
    ∀ (f : Nat) (l : List (Digest × Bytes)) (d : Nat),
      (canon H f l d).height ≤ f := by
  intro f
  induction f with
  | zero =>
      intro l d
      rcases l with _ | ⟨a, _ | ⟨b, t⟩⟩
      · rw [canon_nil]; exact le_rfl
      · rw [canon_single]; exact le_rfl
      · rw [show canon H 0 (a :: b :: t) d = .empty from rfl]; exact le_rfl
  | succ f ih =>
      intro l d
      rcases l with _ | ⟨a, _ | ⟨b, t⟩⟩
      · rw [canon_nil]; exact Nat.zero_le _
      · rw [canon_single]; exact Nat.zero_le _
      · rw [canon_cons]
        show max (canon H f _ (d + 1)).height (canon H f _ (d + 1)).height + 1 ≤ f + 1
        have h1 := ih ((a :: b :: t).filter fun kv => !has_bit kv.1 d) (d + 1)
        have h2 := ih ((a :: b :: t).filter fun kv => has_bit kv.1 d) (d + 1)
        omega

theorem canon_perm (H : Bytes → Digest) :
    ∀ (f : Nat) (l l2 : List (Digest × Bytes)) (d : Nat), l.Perm l2 →
      canon H f l d = canon H f l2 d := by
  intro f
  induction f with
  | zero =>
      intro l l2 d hp
      rcases l with _ | ⟨a, _ | ⟨b, t⟩⟩
      · rw [(List.perm_nil.mp hp.symm : l2 = [])]
      · rw [List.perm_singleton.mp hp.symm]
      · have hlen := hp.length_eq
        rcases l2 with _ | ⟨a2, _ | ⟨b2, t2⟩⟩
        · simp at hlen
        · simp at hlen
        · rfl
  | succ f ih =>
      intro l l2 d hp
      rcases l with _ | ⟨a, _ | ⟨b, t⟩⟩
      · rw [(List.perm_nil.mp hp.symm : l2 = [])]
      · rw [List.perm_singleton.mp hp.symm]
      · have hlen := hp.length_eq
        rcases l2 with _ | ⟨a2, _ | ⟨b2, t2⟩⟩
        · simp at hlen
        · simp at hlen
        · rw [canon_cons, canon_cons,
            ih _ _ (d + 1) (hp.filter fun kv => !has_bit kv.1 d),
            ih _ _ (d + 1) (hp.filter fun kv => has_bit kv.1 d)]

/-- The canonical trie of exactly two keys splitting at bit `e` is the
empty-sibling chain the leaf split of `add_child` builds. -/
theorem canon_pair_chain (H : Bytes → Digest) (kn ko : Digest) (vn vo : Bytes) :
    ∀ (f d e : Nat), d ≤ e →
      (∀ i, d ≤ i → i < e → has_bit kn i = has_bit ko i) →
      has_bit kn e ≠ has_bit ko e →
      (e - d) + 1 ≤ f →
      canon H f [(kn, vn), (ko, vo)] d
        = rebuildLoop kn (Node.new_leaf_node H kn vn)
            (Node.new_leaf_node H ko vo :: List.replicate (e - d) .empty)
            (e + 1) := by
  intro f
  induction f with
  | zero => intro d e _ _ _ hf; omega
  | succ f ih =>
      intro d e hde hagr hdiff hf
      rcases Nat.lt_or_ge d e with hlt | hge
      · have hb : has_bit kn d = has_bit ko d := hagr d le_rfl hlt
        rw [canon_cons]
        have hrhs : Node.new_leaf_node H ko vo :: List.replicate (e - d) .empty
            = (Node.new_leaf_node H ko vo
                :: List.replicate (e - (d + 1)) .empty) ++ [.empty] := by
          have hn : e - d = (e - (d + 1)) + 1 := by omega
          rw [hn, List.replicate_succ' (e - (d + 1)) Node.empty]
          rfl
        rw [hrhs, rebuildLoop_append]
        have hlen : (Node.new_leaf_node H ko vo
            :: List.replicate (e - (d + 1)) Node.empty).length = e - d := by
          simp
          omega
        rw [hlen]
        have hdd : e + 1 - (e - d) = d + 1 := by omega
        rw [hdd, rebuildLoop_step,
          ← ih (d + 1) e (by omega) (fun i h1 h2 => hagr i (by omega) h2)
            hdiff (by omega)]
        cases hbd : has_bit kn d with
        | true =>
            have hko : has_bit ko d = true := by rw [← hb, hbd]
            rw [if_pos rfl]
            simp [List.filter, hbd, hko, canon_nil, rebuildLoop]
        | false =>
            have hko : has_bit ko d = false := by rw [← hb, hbd]
            rw [if_neg (by simp)]
            simp [List.filter, hbd, hko, canon_nil, rebuildLoop]
      · have hd : d = e := by omega
        subst hd
        rw [canon_cons]
        have hrep : (d - d) = 0 := by omega
        rw [hrep]
        show _ = rebuildLoop kn (Node.new_leaf_node H kn vn)
          (Node.new_leaf_node H ko vo :: []) (d + 1)
        rw [rebuildLoop_step]
        cases hbd : has_bit kn d with
        | true =>
            have hko : has_bit ko d = false := by
              cases hko : has_bit ko d
              · rfl
              · exact absurd (hbd.trans hko.symm) hdiff
            rw [if_pos rfl]
            simp [List.filter, hbd, hko, canon_single, rebuildLoop]
        | false =>
            have hko : has_bit ko d = true := by
              cases hko : has_bit ko d
              · exact absurd (hbd.trans hko.symm) hdiff
              · rfl
            rw [if_neg (by simp)]
            simp [List.filter, hbd, hko, canon_single, rebuildLoop]

theorem insertP_new_leaf (H : Bytes → Digest) (nkey okey : Digest)
    (v ov : Bytes) (d : Nat) :
    insertP H nkey v (Node.new_leaf_node H okey ov) d
      = if nkey = okey then
          if hash_leaf_value H nkey v = hash_leaf_value H okey ov then
            some (.unchanged (Node.new_leaf_node H okey ov))
          else some (.replaced (Node.new_leaf_node H nkey v))
        else
          match splitPush nkey okey d [] SPLIT_FUEL with
          | none => none
          | some (e, emp) =>
              some (.replaced (rebuildLoop nkey (Node.new_leaf_node H nkey v)
                (Node.new_leaf_node H okey ov :: emp) (e + 1))) := rfl

theorem insertP_new_internal (H : Bytes → Digest) (nkey : Digest) (v : Bytes)
    (left right : Node) (d : Nat) :
    insertP H nkey v (Node.new_internal_node left right) d
      = if d = KEY_SIZE then none
        else if has_bit nkey d then
          match insertP H nkey v right (d + 1) with
          | none => none
          | some (.unchanged sub) => some (.unchanged sub)
          | some (.replaced t2) =>
              some (.replaced (Node.new_internal_node left t2))
        else
          match insertP H nkey v left (d + 1) with
          | none => none
          | some (.unchanged sub) => some (.unchanged sub)
          | some (.replaced t2) =>
              some (.replaced (Node.new_internal_node t2 right)) := rfl

/-- Inserting a fresh well-formed key into a canonical trie yields the
canonical trie of the extended list. -/
theorem ins_canon (H : Bytes → Digest) (nkey : Digest) (v : Bytes)
    (hwn : wfDigest nkey) :
    ∀ (f : Nat) (l : List (Digest × Bytes)) (d : Nat),
      (∀ kv ∈ l, wfDigest kv.1) →
      l.Pairwise (fun a b => a.1 ≠ b.1) →
      (∀ kv ∈ l, kv.1 ≠ nkey) →
      (∀ kv ∈ l, ∀ i, i < d → has_bit kv.1 i = has_bit nkey i) →
      256 - d ≤ f →
      insertP H nkey v (canon H f l d) d
        = some (.replaced (canon H f ((nkey, v) :: l) d)) := by
  intro f
  induction f with
  | zero =>
      intro l d hwf hpw hnk hpref hfuel
      rcases l with _ | ⟨x, _ | ⟨y, t⟩⟩
      · rw [canon_nil, canon_single]
        rfl
      · -- a distinct wf key forces a differing bit below 256, so d < 256
        have hwx : wfDigest x.1 := hwf x (by simp)
        have hne : nkey ≠ x.1 := fun h => (hnk x (by simp)) h.symm
        obtain ⟨j0, hj0lt, hj0ne⟩ := wf_ne_has_bit hwn hwx hne
        have hj0d : d ≤ j0 := by
          by_contra hlt
          exact hj0ne ((hpref x (by simp) j0 (by omega)).symm)
        omega
      · have hab : x.1 ≠ y.1 := (List.pairwise_cons.mp hpw).1 y (by simp)
        obtain ⟨j0, hj0lt, hj0ne⟩ :=
          wf_ne_has_bit (hwf x (by simp)) (hwf y (by simp)) hab
        have hj0d : d ≤ j0 := by
          by_contra hlt
          exact hj0ne ((hpref x (by simp) j0 (by omega)).trans
            (hpref y (by simp) j0 (by omega)).symm)
        omega
  | succ f ih =>
      intro l d hwf hpw hnk hpref hfuel
      rcases l with _ | ⟨x, _ | ⟨y, t⟩⟩
      · rw [canon_nil, canon_single]
        rfl
      · have hwx : wfDigest x.1 := hwf x (by simp)
        have hne : nkey ≠ x.1 := fun h => (hnk x (by simp)) h.symm
        obtain ⟨j0, hj0lt, hj0ne⟩ := wf_ne_has_bit hwn hwx hne
        have hex : ∃ j, has_bit nkey j ≠ has_bit x.1 j := ⟨j0, hj0ne⟩
        have hPj : has_bit nkey (Nat.find hex) ≠ has_bit x.1 (Nat.find hex) :=
          Nat.find_spec hex
        have hj256 : Nat.find hex < 256 :=
          lt_of_le_of_lt (Nat.find_min' hex hj0ne) hj0lt
        have hmin : ∀ i, d ≤ i → i < Nat.find hex →
            has_bit nkey i = has_bit x.1 i :=
          fun i _ h2 => not_not.mp (Nat.find_min hex h2)
        have hdj : d ≤ Nat.find hex := by
          by_contra hlt
          exact hPj ((hpref x (by simp) (Nat.find hex) (by omega)).symm)
        rw [canon_single, insertP_new_leaf, if_neg hne,
          splitPush_eq nkey x.1 hwn hwx SPLIT_FUEL d (Nat.find hex) hj256 hdj
            hPj hmin (by show Nat.find hex - d < 300; omega)]
        have hchain := canon_pair_chain H nkey x.1 v x.2 (f + 1) d
          (Nat.find hex) hdj hmin hPj (by omega)
        show some (InsRes.replaced (rebuildLoop nkey (Node.new_leaf_node H nkey v)
            (Node.new_leaf_node H x.1 x.2
              :: List.replicate (Nat.find hex - d) .empty) (Nat.find hex + 1)))
          = some (InsRes.replaced (canon H (f + 1) ((nkey, v) :: [x]) d))
        rw [show ((nkey, v) :: [x] : List (Digest × Bytes))
          = [(nkey, v), (x.1, x.2)] from rfl, hchain]
      · have hab : x.1 ≠ y.1 := (List.pairwise_cons.mp hpw).1 y (by simp)
        obtain ⟨j0, hj0lt, hj0ne⟩ :=
          wf_ne_has_bit (hwf x (by simp)) (hwf y (by simp)) hab
        have hj0d : d ≤ j0 := by
          by_contra hlt
          exact hj0ne ((hpref x (by simp) j0 (by omega)).trans
            (hpref y (by simp) j0 (by omega)).symm)
        have hd256 : d < 256 := by omega
        rw [canon_cons, insertP_new_internal,
          if_neg (show ¬ d = KEY_SIZE by show ¬ d = 256; omega)]
        by_cases hb : has_bit nkey d
        · have hbt : has_bit nkey d = true := hb
          simp only [hb, if_true]
          rw [ih (List.filter (fun kv => has_bit kv.1 d) (x :: y :: t)) (d + 1)
            (fun kv hm => hwf kv (List.mem_of_mem_filter hm))
            (hpw.filter _)
            (fun kv hm => hnk kv (List.mem_of_mem_filter hm))
            (by
              intro kv hm i hi
              obtain ⟨hmem, hpk⟩ := List.mem_filter.mp hm
              rcases Nat.lt_or_ge i d with h | h
              · exact hpref kv hmem i h
              · have hieq : i = d := by omega
                subst hieq
                rw [hpk, hbt])
            (by omega)]
          have hfT : List.filter (fun kv => has_bit kv.1 d)
              ((nkey, v) :: x :: y :: t)
              = (nkey, v) :: List.filter (fun kv => has_bit kv.1 d)
                  (x :: y :: t) := by
            simp [List.filter, hbt]
          have hfF : List.filter (fun kv => !has_bit kv.1 d)
              ((nkey, v) :: x :: y :: t)
              = List.filter (fun kv => !has_bit kv.1 d) (x :: y :: t) := by
            simp [List.filter, hbt]
          rw [canon_cons, hfT, hfF]
        · have hbf : has_bit nkey d = false := by simpa using hb
          rw [hbf, if_neg (show ¬ false = true by simp)]
          rw [ih (List.filter (fun kv => !has_bit kv.1 d) (x :: y :: t)) (d + 1)
            (fun kv hm => hwf kv (List.mem_of_mem_filter hm))
            (hpw.filter _)
            (fun kv hm => hnk kv (List.mem_of_mem_filter hm))
            (by
              intro kv hm i hi
              obtain ⟨hmem, hpk⟩ := List.mem_filter.mp hm
              rcases Nat.lt_or_ge i d with h | h
              · exact hpref kv hmem i h
              · have hieq : i = d := by omega
                subst hieq
                simp only [Bool.not_eq_true'] at hpk
                rw [hpk, hbf])
            (by omega)]
          have hfT : List.filter (fun kv => has_bit kv.1 d)
              ((nkey, v) :: x :: y :: t)
              = List.filter (fun kv => has_bit kv.1 d) (x :: y :: t) := by
            simp [List.filter, hbf]
          have hfF : List.filter (fun kv => !has_bit kv.1 d)
              ((nkey, v) :: x :: y :: t)
              = (nkey, v) :: List.filter (fun kv => !has_bit kv.1 d)
                  (x :: y :: t) := by
            simp [List.filter, hbf]
          rw [canon_cons, hfT, hfF]

/-- Running the faithful insert loop over a list of fresh distinct keys,
starting from a canonical trie, lands on the canonical trie of the combined
list (store-independent: no hash node is ever resolved). -/
theorem insertList_canonAcc (H : Bytes → Digest) (s : StoreSt) :
    ∀ (l : List (Bytes × Bytes)) (acc : List (Digest × Bytes)),
      (∀ kv ∈ acc, wfDigest kv.1) →
      (∀ kv ∈ l, wfDigest (H kv.1)) →
      ((l.map fun kv => H kv.1) ++ acc.map Prod.fst).Pairwise (· ≠ ·) →
      insertList H s (canon H 256 acc 0) l
        = some (canon H 256 ((digs H l).reverse ++ acc) 0) := by
  intro l
  induction l with
  | nil =>
      intro acc _ _ _
      show some (canon H 256 acc 0) = some (canon H 256 ([] ++ acc) 0)
      rw [List.nil_append]
  | cons kv rest ih =>
      obtain ⟨k, v⟩ := kv
      intro acc hwfacc hwfl hpw
      simp only [List.map_cons, List.cons_append] at hpw
      have hpwparts := List.pairwise_append.mp (List.pairwise_cons.mp hpw).2
      have hwfk : wfDigest (H k) := hwfl (k, v) (by simp)
      have hneacc : ∀ kv1 ∈ acc, kv1.1 ≠ H k := by
        intro kv1 hm
        exact fun h =>
          ((List.pairwise_cons.mp hpw).1 kv1.1
            (List.mem_append_right _ (List.mem_map_of_mem Prod.fst hm))) h.symm
      have hpwacc : acc.Pairwise (fun a b => a.1 ≠ b.1) :=
        List.pairwise_map.mp hpwparts.2.1
      have hins : treeInsert H s (canon H 256 acc 0) k v
          = some (canon H 256 ((H k, v) :: acc) 0) := by
        unfold treeInsert addChild
        rw [addChildGo_insertP H s (H k) v (canon H 256 acc 0) 0 [] TREE_FUEL
          (canon_hashfree H 256 acc 0)
          (by
            have hht := height_canon H 256 acc 0
            show (canon H 256 acc 0).height + 1 ≤ 600
            omega),
          ins_canon H (H k) v hwfk 256 acc 0 hwfacc hpwacc hneacc
            (fun kv1 _ i hi => absurd hi (by omega)) (by omega)]
        rfl
      show (match treeInsert H s (canon H 256 acc 0) k v with
            | some t1 => insertList H s t1 rest
            | none => none)
          = some (canon H 256 ((digs H ((k, v) :: rest)).reverse ++ acc) 0)
      rw [hins]
      show insertList H s (canon H 256 ((H k, v) :: acc) 0) rest = _
      rw [ih ((H k, v) :: acc)
        (by
          intro kv1 hm
          rcases List.mem_cons.mp hm with hh | ht
          · rw [hh]
            exact hwfk
          · exact hwfacc kv1 ht)
        (fun kv1 hm => hwfl kv1 (by simp [hm]))
        (by
          simp only [List.map_cons]
          refine (List.Perm.pairwise_iff (fun h => Ne.symm h)
            List.perm_middle).mpr ?_
          exact hpw)]
      have hlist : (digs H ((k, v) :: rest)).reverse ++ acc
          = (digs H rest).reverse ++ ((H k, v) :: acc) := by
        simp [digs]
      rw [hlist]

/-- C4: the root hash after a sequence of inserts of distinct fresh keys
depends only on the set of key/value pairs inserted, not on the order:
permuting the insert list leaves the resulting root node (hence
`root_hash()`) unchanged, and the inserts all succeed. -/
theorem c4_root_hash_permutation_invariant (H : Bytes → Digest)
    (s1 s2 : StoreSt) (l1 l2 : List (Bytes × Bytes))
    (hperm : l1.Perm l2)
    (hwf : ∀ kv ∈ l1, wfDigest (H kv.1))
    (hdist : (l1.map fun kv => H kv.1).Pairwise (· ≠ ·)) :
    (insertList H s1 .empty l1).isSome = true ∧
      (insertList H s1 .empty l1).map (Node.hash H)
        = (insertList H s2 .empty l2).map (Node.hash H) := by
  have hempty : (Node.empty : Node) = canon H 256 [] 0 := (canon_nil H 256 0).symm
  have h1 := insertList_canonAcc H s1 l1 [] (by simp) hwf (by simpa using hdist)
  have hwf2 : ∀ kv ∈ l2, wfDigest (H kv.1) :=
    fun kv hm => hwf kv (hperm.mem_iff.mpr hm)
  have hdist2 : (l2.map fun kv => H kv.1).Pairwise (· ≠ ·) :=
    (List.Perm.pairwise_iff (fun h => Ne.symm h)
      (hperm.map fun kv => H kv.1)).mp hdist
  have h2 := insertList_canonAcc H s2 l2 [] (by simp) hwf2 (by simpa using hdist2)
  simp only [List.append_nil] at h1 h2
  have hmap : (digs H l1).Perm (digs H l2) := by
    unfold digs
    exact hperm.map _
  have hp : ((digs H l1).reverse).Perm ((digs H l2).reverse) :=
    ((digs H l1).reverse_perm.trans hmap).trans
      ((digs H l2).reverse_perm.symm)
  have hXY : canon H 256 ((digs H l1).reverse) 0
      = canon H 256 ((digs H l2).reverse) 0 :=
    canon_perm H 256 _ _ 0 hp
  rw [hempty, h1, h2, hXY]
  exact ⟨rfl, rfl⟩

/-- Witness for C4 at a concrete pair of permuted insert sequences. -/
theorem c4_witness :
    (([([0], [7]), ([1], [8])] : List (Bytes × Bytes)).Perm
        [([1], [8]), ([0], [7])] ∧
      (∀ kv ∈ ([([0], [7]), ([1], [8])] : List (Bytes × Bytes)),
        wfDigest (toyHash kv.1)) ∧
      (([([0], [7]), ([1], [8])] : List (Bytes × Bytes)).map
        fun kv => toyHash kv.1).Pairwise (· ≠ ·)) ∧
    ((insertList toyHash freshStore .empty
        [([0], [7]), ([1], [8])]).isSome = true ∧
      (insertList toyHash freshStore .empty
          [([0], [7]), ([1], [8])]).map (Node.hash toyHash)
        = (insertList toyHash freshStore .empty
            [([1], [8]), ([0], [7])]).map (Node.hash toyHash)) :=
  ⟨⟨by decide, fun kv _ => toyHash_wf kv.1, by decide⟩,
    c4_root_hash_permutation_invariant toyHash freshStore freshStore
      [([0], [7]), ([1], [8])] [([1], [8]), ([0], [7])]
      (by decide) (fun kv _ => toyHash_wf kv.1) (by decide)⟩

end Urkel

